import Mathlib

/-!
Verification of the sorting/animation core of the Sorting Algorithm Visualizer.

The sort engine of `array-visualizer.ts` is embedded shallowly: the working
array is a `List Int`, JS index reads `array[i]` become `aget` (all reachable
reads are in range), and each sort routine returns the mutated array together
with the list of move records it pushed onto `animations`, in emission order.
Loops become recursion; the quick-sort scan loop, whose termination in the
source depends on a data invariant (the pivot sits at `lo`), is given explicit
fuel and its termination is proved as a theorem.
-/

namespace SortVis

/-- Read of `array[i]`; the default 0 is junk that in-range accesses never see. -/
def aget (a : List Int) (i : Nat) : Int := a.getD i 0

/-- Embedding of the component's `swap` method:
`temporary = array[index1]; array[index1] = array[index2]; array[index2] = temporary`. -/
def swap (a : List Int) (i j : Nat) : List Int :=
  (a.set i (aget a j)).set j (aget a i)

/-- One recorded move, covering the shapes pushed onto `animations` by the four
sorts: bubble sort's `{lo, hi}`, merge and counting sort's `{index, value}` /
`{index, newValue}`, and quick sort's `'swap-element'` and `'swap-pivot'`. -/
inductive Move where
  | swapByIndex (lo hi : Nat)
  | setValueAtIndex (index : Nat) (value : Int)
  | swapElement (index1 index2 : Nat)
  | swapPivot (pivotIndex swapIndex : Nat)
deriving DecidableEq

/-- Value effect of replaying one move against a display array, as each
animation handler does: the swap shapes exchange two entries wholesale,
`setValueAtIndex` overwrites one entry from the recorded value. -/
def applyMove (x : List Int) : Move → List Int
  | .swapByIndex i j => swap x i j
  | .setValueAtIndex i v => x.set i v
  | .swapElement i j => swap x i j
  | .swapPivot i j => swap x i j

/-- Replay a move log in emission order (the component reverses the log and
then pops from the end, which restores emission order). -/
def replay (x : List Int) (ms : List Move) : List Int := ms.foldl applyMove x

theorem replay_append (x : List Int) (ms ms' : List Move) :
    replay x (ms ++ ms') = replay (replay x ms) ms' :=
  List.foldl_append _ _ _ _

theorem replay_cons (x : List Int) (m : Move) (ms : List Move) :
    replay x (m :: ms) = replay (applyMove x m) ms := rfl

theorem replay_nil (x : List Int) : replay x [] = x := rfl

theorem aget_out (a : List Int) {i : Nat} (h : a.length ≤ i) : aget a i = 0 :=
  List.getD_eq_default _ _ h

theorem aget_set_self (a : List Int) {i : Nat} (h : i < a.length) (v : Int) :
    aget (a.set i v) i = v := by
  simp [aget, List.getD_eq_getElem?_getD, List.getElem?_set_self h]

theorem aget_set_ne (a : List Int) {i j : Nat} (h : i ≠ j) (v : Int) :
    aget (a.set i v) j = aget a j := by
  simp [aget, List.getD_eq_getElem?_getD, List.getElem?_set_ne h]

theorem aget_eq_getElem (a : List Int) {i : Nat} (h : i < a.length) :
    aget a i = a[i] := by
  simp [aget, List.getD_eq_getElem?_getD, List.getElem?_eq_getElem h]

@[simp] theorem length_swap (a : List Int) (i j : Nat) :
    (swap a i j).length = a.length := by
  simp [swap]

theorem aget_swap_fst (a : List Int) {i j : Nat} (hi : i < a.length)
    (hj : j < a.length) : aget (swap a i j) i = aget a j := by
  by_cases h : j = i
  · subst h
    simp [swap, aget_set_self _ (by simpa using hi)]
  · simp [swap, aget_set_ne _ h, aget_set_self _ hi]

theorem aget_swap_snd (a : List Int) {i j : Nat} (hj : j < a.length) :
    aget (swap a i j) j = aget a i := by
  unfold swap
  exact aget_set_self _ (by simpa using hj) _

theorem aget_swap_other (a : List Int) {i j k : Nat} (h1 : k ≠ i) (h2 : k ≠ j) :
    aget (swap a i j) k = aget a k := by
  simp [swap, aget_set_ne _ (fun h => h2 h.symm), aget_set_ne _ (fun h => h1 h.symm)]

theorem count_set (a : List Int) (i : Nat) (h : i < a.length) (x v : Int) :
    (a.set i x).count v + (if aget a i = v then 1 else 0)
      = a.count v + (if x = v then 1 else 0) := by
  induction a generalizing i with
  | nil => simp at h
  | cons hd tl ih =>
    cases i with
    | zero =>
      simp only [List.set_cons_zero, List.count_cons, aget, List.getD_cons_zero]
      by_cases h1 : hd = v <;> by_cases h2 : x = v <;>
        simp [h1, h2] <;> omega
    | succ n =>
      have hn : n < tl.length := by simpa using h
      have ihn := ih n hn
      simp only [List.set_cons_succ, List.count_cons, aget, List.getD_cons_succ,
        List.getD_eq_getElem?_getD] at ihn ⊢
      by_cases h1 : hd = v <;> simp [h1] <;> omega

theorem swap_perm (a : List Int) {i j : Nat} (hi : i < a.length)
    (hj : j < a.length) : (swap a i j).Perm a := by
  rw [List.perm_iff_count]
  intro v
  have h1 := count_set a i hi (aget a j) v
  have h2 := count_set (a.set i (aget a j)) j (by simpa using hj) (aget a i) v
  have h3 : aget (a.set i (aget a j)) j =
      if i = j then aget a j else aget a j := by
    by_cases h : i = j
    · subst h; simp [aget_set_self _ hi]
    · simp [aget_set_ne _ h]
  simp only [ite_self] at h3
  rw [h3] at h2
  unfold swap
  split_ifs at h1 h2 <;> omega

/-- Adjacent-pairs monotonicity upgraded to arbitrary index pairs. -/
theorem le_of_adjacent_le {a : List Int} {lo hi : Nat}
    (h : ∀ m, lo ≤ m → m + 1 ≤ hi → aget a m ≤ aget a (m + 1)) :
    ∀ j k, lo ≤ j → j ≤ k → k ≤ hi → aget a j ≤ aget a k := by
  intro j k
  induction k with
  | zero =>
    intro _ h2 _
    have hj0 : j = 0 := by omega
    subst hj0
    exact le_refl _
  | succ n ih =>
    intro h1 h2 h3
    rcases Nat.eq_or_lt_of_le h2 with rfl | hlt
    · exact le_refl _
    · exact le_trans (ih h1 (by omega) (by omega)) (h n (by omega) h3)

/-- The contiguous slice `a[lo..hi]` (both ends inclusive), as a list. -/
def seg (a : List Int) (lo hi : Nat) : List Int :=
  (a.drop lo).take (hi + 1 - lo)

theorem length_seg (a : List Int) {lo hi : Nat} (h1 : lo ≤ hi)
    (h2 : hi < a.length) : (seg a lo hi).length = hi + 1 - lo := by
  simp [seg]
  omega

theorem getElem_seg (a : List Int) {lo hi k : Nat} (h2 : hi < a.length)
    (hk : k < (seg a lo hi).length) : (seg a lo hi)[k] = aget a (lo + k) := by
  have hsl : (seg a lo hi).length = min (hi + 1 - lo) (a.length - lo) := by
    simp [seg]
  have hklt : k < hi + 1 - lo ∧ k < a.length - lo := by
    rw [hsl] at hk
    omega
  have hka : lo + k < a.length := by omega
  have h1 : (seg a lo hi)[k]? = a[lo + k]? := by
    unfold seg
    rw [List.getElem?_take, if_pos hklt.1]
    exact List.getElem?_drop a lo k
  have h2' := List.getElem?_eq_getElem hk
  rw [h1, List.getElem?_eq_getElem hka] at h2'
  rw [aget_eq_getElem a hka]
  exact (Option.some_inj.mp h2').symm

theorem aget_seg (a : List Int) {lo hi k : Nat} (h1 : lo ≤ hi) (h2 : hi < a.length)
    (hk : k < hi + 1 - lo) : aget (seg a lo hi) k = aget a (lo + k) := by
  have hk' : k < (seg a lo hi).length := by rw [length_seg a h1 h2]; exact hk
  rw [aget_eq_getElem _ hk']
  exact getElem_seg a h2 hk'

theorem seg_eq_of_agree {x y : List Int} {lo hi : Nat}
    (hlen : x.length = y.length) (h2 : hi < x.length)
    (hag : ∀ m, lo ≤ m → m ≤ hi → aget x m = aget y m) :
    seg x lo hi = seg y lo hi := by
  rcases le_or_lt lo hi with hle | hlt
  · apply List.ext_getElem
    · rw [length_seg x hle h2, length_seg y hle (hlen ▸ h2)]
    · intro n hn1 hn2
      rw [getElem_seg x h2 hn1, getElem_seg y (hlen ▸ h2) hn2]
      exact hag (lo + n) (by omega) (by
        rw [length_seg x hle h2] at hn1
        omega)
  · unfold seg
    have : hi + 1 - lo = 0 := by omega
    simp [this]

/-- Decompose a list into the part before `lo`, the slice `[lo..hi]`, and the
part after `hi`. -/
theorem eq_take_append_seg_append_drop (a : List Int) {lo hi : Nat}
    (h1 : lo ≤ hi) :
    a = a.take lo ++ seg a lo hi ++ a.drop (hi + 1) := by
  unfold seg
  conv_lhs => rw [← List.take_append_drop lo a]
  rw [List.append_assoc]
  congr 1
  conv_lhs => rw [← List.take_append_drop (hi + 1 - lo) (a.drop lo)]
  congr 1
  rw [List.drop_drop]
  congr 1
  omega

/-- Two equal-length lists that agree outside `[lo..hi]` and whose `[lo..hi]`
slices are permutations are permutations. -/
theorem perm_of_seg_perm {x y : List Int} {lo hi : Nat}
    (hlen : x.length = y.length) (h1 : lo ≤ hi) (h2 : hi < x.length)
    (hseg : (seg x lo hi).Perm (seg y lo hi))
    (hout : ∀ m, m < x.length → (m < lo ∨ hi < m) → aget x m = aget y m) :
    x.Perm y := by
  have hx := eq_take_append_seg_append_drop x h1
  have hy := eq_take_append_seg_append_drop y h1
  have htake : x.take lo = y.take lo := by
    apply List.ext_getElem
    · simp [hlen]
    · intro n hn1 hn2
      have hnlo : n < lo := by simp at hn1; omega
      have hnx : n < x.length := by simp at hn1; omega
      have hny : n < y.length := by simp at hn2; omega
      rw [List.getElem_take, List.getElem_take]
      rw [← aget_eq_getElem x hnx, ← aget_eq_getElem y hny]
      exact hout n hnx (Or.inl hnlo)
  have hdrop : x.drop (hi + 1) = y.drop (hi + 1) := by
    apply List.ext_getElem
    · simp [hlen]
    · intro n hn1 hn2
      have hnx : hi + 1 + n < x.length := by simp at hn1; omega
      have hny : hi + 1 + n < y.length := by simp at hn2; omega
      rw [List.getElem_drop, List.getElem_drop]
      rw [← aget_eq_getElem x hnx, ← aget_eq_getElem y hny]
      exact hout (hi + 1 + n) hnx (Or.inr (by omega))
  rw [hx, hy, htake, hdrop]
  exact (hseg.append_left _).append_right _

/-- Membership transfer: each in-slice entry of a permuted-slice array is an
in-slice entry of the original. -/
theorem seg_mem_of_perm {x y : List Int} {lo hi : Nat}
    (hlen : x.length = y.length) (h1 : lo ≤ hi) (h2 : hi < x.length)
    (hseg : (seg x lo hi).Perm (seg y lo hi)) :
    ∀ m, lo ≤ m → m ≤ hi → ∃ q, lo ≤ q ∧ q ≤ hi ∧ aget x m = aget y q := by
  intro m hm1 hm2
  have hmem : aget x m ∈ seg x lo hi := by
    have hk : m - lo < (seg x lo hi).length := by rw [length_seg x h1 h2]; omega
    have := getElem_seg x h2 hk
    rw [show lo + (m - lo) = m by omega] at this
    exact this ▸ List.getElem_mem hk
  rw [hseg.mem_iff] at hmem
  obtain ⟨k, hk, hkeq⟩ := List.getElem_of_mem hmem
  refine ⟨lo + k, by omega, ?_, ?_⟩
  · have := hk
    rw [length_seg y h1 (hlen ▸ h2)] at this
    omega
  · rw [← hkeq, getElem_seg y (hlen ▸ h2) hk]

/-- Embedding of `bubble(array, lo, hi)`: scan `i` from `lo` to `hi - 1`; on
each out-of-order adjacent pair push `{lo: i, hi: i + 1}` and swap.  The scan
index is modelled by the `lo` argument of the recursion. -/
def bubble (a : List Int) (lo hi : Nat) : List Int × List Move :=
  if lo < hi then
    if aget a lo > aget a (lo + 1) then
      (Prod.fst (bubble (swap a lo (lo + 1)) (lo + 1) hi),
        Move.swapByIndex lo (lo + 1) :: Prod.snd (bubble (swap a lo (lo + 1)) (lo + 1) hi))
    else bubble a (lo + 1) hi
  else (a, [])
termination_by hi - lo

/-- Embedding of `bubbleSort`'s outer loop: passes with `hi = i, i-1, ..., 1`. -/
def bubbleSortAux : List Int → Nat → List Int × List Move
  | a, 0 => (a, [])
  | a, i + 1 =>
    (Prod.fst (bubbleSortAux (bubble a 0 (i + 1)).1 i),
      (bubble a 0 (i + 1)).2 ++ Prod.snd (bubbleSortAux (bubble a 0 (i + 1)).1 i))

/-- Embedding of `bubbleSort(array)`: `for (let i = array.length - 1; i > 0; i--) bubble(array, 0, i)`. -/
def bubbleSort (a : List Int) : List Int × List Move :=
  bubbleSortAux a (a.length - 1)

theorem bubble_stop {a : List Int} {lo hi : Nat} (h : ¬ lo < hi) :
    bubble a lo hi = (a, []) := by
  rw [bubble, if_neg h]

theorem bubble_step_swap {a : List Int} {lo hi : Nat} (h : lo < hi)
    (hgt : aget a lo > aget a (lo + 1)) :
    bubble a lo hi =
      ((bubble (swap a lo (lo + 1)) (lo + 1) hi).1,
        Move.swapByIndex lo (lo + 1) :: (bubble (swap a lo (lo + 1)) (lo + 1) hi).2) := by
  rw [bubble, if_pos h, if_pos hgt]

theorem bubble_step_noswap {a : List Int} {lo hi : Nat} (h : lo < hi)
    (hle : ¬ aget a lo > aget a (lo + 1)) :
    bubble a lo hi = bubble a (lo + 1) hi := by
  rw [bubble, if_pos h, if_neg hle]

theorem bubble_length (a : List Int) (lo hi : Nat) :
    (bubble a lo hi).1.length = a.length := by
  induction a, lo, hi using bubble.induct with
  | case1 a lo hi h hgt ih =>
    rw [bubble_step_swap h hgt]
    simpa using ih
  | case2 a lo hi h hle ih =>
    rw [bubble_step_noswap h hle]
    exact ih
  | case3 a lo hi h =>
    rw [bubble_stop h]

theorem bubble_untouched (a : List Int) (lo hi : Nat) :
    ∀ k, k < lo ∨ hi < k → aget (bubble a lo hi).1 k = aget a k := by
  induction a, lo, hi using bubble.induct with
  | case1 a lo hi h hgt ih =>
    intro k hk
    rw [bubble_step_swap h hgt]
    rw [ih k (by omega)]
    exact aget_swap_other a (by omega) (by omega)
  | case2 a lo hi h hle ih =>
    intro k hk
    rw [bubble_step_noswap h hle]
    exact ih k (by omega)
  | case3 a lo hi h =>
    intro k _
    rw [bubble_stop h]

theorem bubble_perm (a : List Int) (lo hi : Nat) (hhi : hi < a.length) :
    (bubble a lo hi).1.Perm a := by
  induction a, lo, hi using bubble.induct with
  | case1 a lo hi h hgt ih =>
    rw [bubble_step_swap h hgt]
    exact (ih (by simpa using hhi)).trans
      (swap_perm a (by omega) (by omega))
  | case2 a lo hi h hle ih =>
    rw [bubble_step_noswap h hle]
    exact ih hhi
  | case3 a lo hi h =>
    rw [bubble_stop h]

theorem bubble_bound (a : List Int) (lo hi : Nat) (hhi : hi < a.length) :
    ∀ k, lo ≤ k → k ≤ hi → aget a k ≤ aget (bubble a lo hi).1 hi := by
  induction a, lo, hi using bubble.induct with
  | case1 a lo hi h hgt ih =>
    intro k hk1 hk2
    rw [bubble_step_swap h hgt]
    have hsw : (swap a lo (lo + 1)).length = a.length := by simp
    have ih' := ih (by omega)
    rcases Nat.lt_or_ge k (lo + 1) with hk | hk
    · have hklo : k = lo := by omega
      subst hklo
      have := ih' (k + 1) (by omega) (by omega)
      rwa [aget_swap_snd a (by omega)] at this
    · rcases Nat.eq_or_lt_of_le hk with rfl | hk'
      · have := ih' (lo + 1) (by omega) (by omega)
        rw [aget_swap_snd a (by omega)] at this
        exact le_trans (le_of_lt hgt) this
      · have := ih' k (by omega) hk2
        rwa [aget_swap_other a (by omega) (by omega)] at this
  | case2 a lo hi h hle ih =>
    intro k hk1 hk2
    rw [bubble_step_noswap h hle]
    rcases Nat.lt_or_ge k (lo + 1) with hk | hk
    · have hklo : k = lo := by omega
      subst hklo
      exact le_trans (not_lt.mp hle) (ih hhi (k + 1) (by omega) (by omega))
    · exact ih hhi k hk hk2
  | case3 a lo hi h =>
    intro k hk1 hk2
    rw [bubble_stop h]
    have : k = hi := by omega
    subst this
    exact le_refl _

theorem bubble_mem (a : List Int) (lo hi : Nat) (hhi : hi < a.length) :
    ∀ p, lo ≤ p → p ≤ hi →
      ∃ q, lo ≤ q ∧ q ≤ hi ∧ aget (bubble a lo hi).1 p = aget a q := by
  induction a, lo, hi using bubble.induct with
  | case1 a lo hi h hgt ih =>
    intro p hp1 hp2
    rw [bubble_step_swap h hgt]
    rcases Nat.lt_or_ge p (lo + 1) with hp | hp
    · have hplo : p = lo := by omega
      subst hplo
      refine ⟨p + 1, by omega, by omega, ?_⟩
      have hu := bubble_untouched (swap a p (p + 1)) (p + 1) hi p (by omega)
      simp only [hu]
      exact aget_swap_fst a (by omega) (by omega)
    · obtain ⟨q, hq1, hq2, hq3⟩ := ih (by simpa using hhi) p hp hp2
      rcases Nat.eq_or_lt_of_le hq1 with heq | hq'
      · exact ⟨lo, by omega, by omega, by
          rw [hq3, ← heq, aget_swap_snd a (by omega)]⟩
      · exact ⟨q, by omega, hq2, by
          rw [hq3, aget_swap_other a (by omega) (by omega)]⟩
  | case2 a lo hi h hle ih =>
    intro p hp1 hp2
    rcases Nat.lt_or_ge p (lo + 1) with hp | hp
    · have hplo : p = lo := by omega
      subst hplo
      rw [bubble_step_noswap h hle]
      refine ⟨p, by omega, by omega, ?_⟩
      exact bubble_untouched a (p + 1) hi p (by omega)
    · rw [bubble_step_noswap h hle]
      obtain ⟨q, hq1, hq2, hq3⟩ := ih hhi p hp hp2
      exact ⟨q, by omega, hq2, hq3⟩
  | case3 a lo hi h =>
    intro p hp1 hp2
    rw [bubble_stop h]
    exact ⟨p, hp1, hp2, rfl⟩

theorem bubble_replay (a : List Int) (lo hi : Nat) :
    replay a (bubble a lo hi).2 = (bubble a lo hi).1 := by
  induction a, lo, hi using bubble.induct with
  | case1 a lo hi h hgt ih =>
    rw [bubble_step_swap h hgt]
    exact ih
  | case2 a lo hi h hle ih =>
    rw [bubble_step_noswap h hle]
    exact ih
  | case3 a lo hi h =>
    rw [bubble_stop h]
    rfl

/-- Invariant threaded through bubble sort's outer loop: every entry at a
position in `[0, i]` is at most every entry beyond `i`, and the tail beyond
`i` is sorted. -/
def BubbleInv (a : List Int) (i : Nat) : Prop :=
  (∀ p q, p ≤ i → i < q → q < a.length → aget a p ≤ aget a q) ∧
  (∀ k, i < k → k + 1 < a.length → aget a k ≤ aget a (k + 1))

theorem bubbleInv_step {a : List Int} {i : Nat} (hlen : i + 1 < a.length)
    (hinv : BubbleInv a (i + 1)) : BubbleInv (bubble a 0 (i + 1)).1 i := by
  obtain ⟨hdom, hsrt⟩ := hinv
  have hblen := bubble_length a 0 (i + 1)
  have hunt := bubble_untouched a 0 (i + 1)
  have hbnd := bubble_bound a 0 (i + 1) hlen
  have hmem := bubble_mem a 0 (i + 1) hlen
  constructor
  · intro p q hp hq hqlen
    obtain ⟨p', _, hp2', hp3'⟩ := hmem p (by omega) (by omega)
    rcases Nat.eq_or_lt_of_le hq with hq' | hq'
    · rw [hp3', ← hq']
      exact hbnd p' (by omega) hp2'
    · rw [hp3', hunt q (by omega)]
      exact hdom p' q hp2' (by omega) (by omega)
  · intro k hk hklen
    rcases Nat.eq_or_lt_of_le hk with hk' | hk'
    · obtain ⟨p', _, hp2', hp3'⟩ := hmem k (by omega) (by omega)
      rw [hp3', hunt (k + 1) (by omega)]
      exact hdom p' (k + 1) hp2' (by omega) (by omega)
    · rw [hunt k (by omega), hunt (k + 1) (by omega)]
      exact hsrt k (by omega) (by omega)

theorem bubbleSortAux_correct : ∀ (i : Nat) (a : List Int), i < a.length →
    BubbleInv a i →
    (bubbleSortAux a i).1.length = a.length ∧
    (bubbleSortAux a i).1.Perm a ∧
    (∀ k, k + 1 < (bubbleSortAux a i).1.length →
      aget (bubbleSortAux a i).1 k ≤ aget (bubbleSortAux a i).1 (k + 1)) ∧
    replay a (bubbleSortAux a i).2 = (bubbleSortAux a i).1 := by
  intro i
  induction i with
  | zero =>
    intro a _ hinv
    refine ⟨rfl, List.Perm.refl a, ?_, rfl⟩
    intro k hk
    cases k with
    | zero => exact hinv.1 0 1 (le_refl 0) (by omega) (by simpa using hk)
    | succ n => exact hinv.2 (n + 1) (by omega) hk
  | succ i ih =>
    intro a hlen hinv
    have hb := bubbleInv_step hlen hinv
    have hblen := bubble_length a 0 (i + 1)
    obtain ⟨l1, p1, s1, r1⟩ := ih (bubble a 0 (i + 1)).1 (by omega) hb
    refine ⟨?_, ?_, ?_, ?_⟩
    · show (bubbleSortAux (bubble a 0 (i + 1)).1 i).1.length = a.length
      omega
    · exact p1.trans (bubble_perm a 0 (i + 1) hlen)
    · exact s1
    · show replay a ((bubble a 0 (i + 1)).2 ++ (bubbleSortAux (bubble a 0 (i + 1)).1 i).2) = _
      rw [replay_append, bubble_replay]
      exact r1

theorem sorted_of_adjacent {a : List Int}
    (h : ∀ k, k + 1 < a.length → aget a k ≤ aget a (k + 1)) :
    a.Sorted (· ≤ ·) := by
  rw [List.Sorted, List.pairwise_iff_getElem]
  intro i j hi hj hij
  have := @le_of_adjacent_le a 0 (a.length - 1)
    (fun m _ hm => h m (by omega)) i j (by omega) (by omega) (by omega)
  rwa [aget_eq_getElem a hi, aget_eq_getElem a hj] at this

theorem eq_insertionSort_of_sorted_perm {x a : List Int} (hperm : x.Perm a)
    (hsort : x.Sorted (· ≤ ·)) : x = List.insertionSort (· ≤ ·) a :=
  List.eq_of_perm_of_sorted (hperm.trans (List.perm_insertionSort _ a).symm) hsort
    (List.sorted_insertionSort _ a)

theorem bubbleInv_top (a : List Int) : BubbleInv a (a.length - 1) := by
  constructor
  · intro p q _ hq hqlen
    omega
  · intro k hk hklen
    omega

theorem bubbleSort_correct (a : List Int) :
    (bubbleSort a).1 = List.insertionSort (· ≤ ·) a ∧
    replay a (bubbleSort a).2 = (bubbleSort a).1 := by
  unfold bubbleSort
  cases ha : a with
  | nil => exact ⟨rfl, rfl⟩
  | cons x xs =>
    rw [← ha]
    have hlen : 0 < a.length := by rw [ha]; simp
    obtain ⟨l1, p1, s1, r1⟩ :=
      bubbleSortAux_correct (a.length - 1) a (by omega) (bubbleInv_top a)
    exact ⟨eq_insertionSort_of_sorted_perm p1 (sorted_of_adjacent s1), r1⟩

/-- Array state of bubble sort after the outer passes with indices
`j, j-1, ..., i` have run. -/
def bubbleRunTo (a : List Int) (j i : Nat) : List Int :=
  if h : 1 ≤ i ∧ i ≤ j then bubbleRunTo (bubble a 0 j).1 (j - 1) i else a
termination_by j
decreasing_by omega

theorem bubbleRunTo_stop {a : List Int} {j i : Nat} (h : ¬ (1 ≤ i ∧ i ≤ j)) :
    bubbleRunTo a j i = a := by
  rw [bubbleRunTo, dif_neg h]

theorem bubbleRunTo_step {a : List Int} {j i : Nat} (h : 1 ≤ i ∧ i ≤ j) :
    bubbleRunTo a j i = bubbleRunTo (bubble a 0 j).1 (j - 1) i := by
  rw [bubbleRunTo, dif_pos h]

/-- The outer loop of `bubbleSort` factors through the intermediate state
after the pass with outer index `i`. -/
theorem bubbleSortAux_factor : ∀ (j : Nat) (a : List Int) (i : Nat),
    1 ≤ i → i ≤ j →
    (bubbleSortAux a j).1 = (bubbleSortAux (bubbleRunTo a j i) (i - 1)).1 := by
  intro j
  induction j with
  | zero => intro a i h1 h2; omega
  | succ j ih =>
    intro a i h1 h2
    rw [bubbleRunTo_step ⟨h1, h2⟩]
    show (bubbleSortAux (bubble a 0 (j + 1)).1 j).1 = _
    rcases Nat.lt_or_ge j i with hj | hj
    · have : i = j + 1 := by omega
      subst this
      rw [bubbleRunTo_stop (by omega)]
      simp only [Nat.add_sub_cancel]
    · simpa using ih (bubble a 0 (j + 1)).1 i h1 hj

theorem bubbleRunTo_length : ∀ (j : Nat) (a : List Int) (i : Nat),
    (bubbleRunTo a j i).length = a.length := by
  intro j
  induction j with
  | zero =>
    intro a i
    rw [bubbleRunTo_stop (by omega)]
  | succ j ih =>
    intro a i
    by_cases h : 1 ≤ i ∧ i ≤ j + 1
    · rw [bubbleRunTo_step h]
      simp only [Nat.add_sub_cancel]
      rw [ih, bubble_length]
    · rw [bubbleRunTo_stop h]

theorem bubbleRunTo_inv : ∀ (j : Nat) (a : List Int) (i : Nat),
    1 ≤ i → i ≤ j → j < a.length → BubbleInv a j →
    BubbleInv (bubbleRunTo a j i) (i - 1) := by
  intro j
  induction j with
  | zero => intro a i h1 h2; omega
  | succ j ih =>
    intro a i h1 h2 hlen hinv
    rw [bubbleRunTo_step ⟨h1, h2⟩]
    have hstep : BubbleInv (bubble a 0 (j + 1)).1 j := bubbleInv_step hlen hinv
    have hblen := bubble_length a 0 (j + 1)
    rcases Nat.lt_or_ge j i with hj | hj
    · have : i = j + 1 := by omega
      subst this
      rw [bubbleRunTo_stop (by omega)]
      simpa using hstep
    · exact (by simpa using ih (bubble a 0 (j + 1)).1 i h1 hj (by omega) hstep)

/-- Copy phase of `merge`: `for (let i = lo; i <= hi; i++) aux[i] = a[i]`.
The auxiliary buffer is a total function because the JS member array
auto-extends on write; entries outside the copied window are never read. -/
def copyToAux (a : List Int) (aux : Nat → Int) (lo hi : Nat) : Nat → Int :=
  if lo ≤ hi then
    copyToAux a (fun x => if x = lo then aget a lo else aux x) (lo + 1) hi
  else aux
termination_by hi + 1 - lo

theorem copyToAux_spec (a : List Int) (aux : Nat → Int) (lo hi : Nat) :
    ∀ p, copyToAux a aux lo hi p =
      if lo ≤ p ∧ p ≤ hi then aget a p else aux p := by
  induction aux, lo, hi using copyToAux.induct a with
  | case1 aux lo hi h ih =>
    intro p
    simp only [dite_eq_ite] at ih
    rw [copyToAux, if_pos h]
    rw [ih p]
    by_cases hp : p = lo
    · subst hp
      simp [h]
    · by_cases hp2 : lo + 1 ≤ p ∧ p ≤ hi
      · rw [if_pos hp2, if_pos (by omega)]
      · rw [if_neg hp2, if_neg hp, if_neg (show ¬(lo ≤ p ∧ p ≤ hi) by omega)]
  | case2 aux lo hi h =>
    intro p
    rw [copyToAux, if_neg h, if_neg (by omega)]

/-- The list of buffer values `aux[p..q]`. -/
def auxSeg (aux : Nat → Int) (p q : Nat) : List Int :=
  (List.range' p (q + 1 - p)).map aux

theorem auxSeg_empty (aux : Nat → Int) {p q : Nat} (h : q + 1 ≤ p) :
    auxSeg aux p q = [] := by
  unfold auxSeg
  rw [show q + 1 - p = 0 by omega]
  rfl

theorem auxSeg_cons (aux : Nat → Int) {p q : Nat} (h : p ≤ q) :
    auxSeg aux p q = aux p :: auxSeg aux (p + 1) q := by
  unfold auxSeg
  rw [show q + 1 - p = (q - p) + 1 by omega, List.range'_succ]
  rw [show q - p = q + 1 - (p + 1) by omega]
  rfl

theorem auxSeg_congr {f g : Nat → Int} {p q : Nat}
    (h : ∀ m, p ≤ m → m ≤ q → f m = g m) : auxSeg f p q = auxSeg g p q := by
  unfold auxSeg
  apply List.ext_getElem
  · simp
  · intro n h1 h2
    rw [List.getElem_map, List.getElem_map, List.getElem_range']
    have hn : n < q + 1 - p := by simpa using h1
    exact h (p + 1 * n) (by omega) (by omega)

theorem seg_empty (x : List Int) {k hi : Nat} (h : hi + 1 ≤ k) :
    seg x k hi = [] := by
  unfold seg
  rw [show hi + 1 - k = 0 by omega]
  rfl

theorem seg_cons (x : List Int) {k hi : Nat} (h1 : k ≤ hi) (h2 : hi < x.length) :
    seg x k hi = aget x k :: seg x (k + 1) hi := by
  unfold seg
  rw [show hi + 1 - k = (hi - k) + 1 by omega,
    List.drop_eq_getElem_cons (show k < x.length by omega), List.take_succ_cons,
    show hi - k = hi + 1 - (k + 1) by omega, aget_eq_getElem x (show k < x.length by omega)]

theorem seg_split (x : List Int) {lo mid hi : Nat} (h1 : lo ≤ mid) (h2 : mid ≤ hi)
    (h3 : hi < x.length) :
    seg x lo hi = seg x lo mid ++ seg x (mid + 1) hi := by
  apply List.ext_getElem
  · rw [length_seg x (by omega) h3]
    simp only [List.length_append]
    rw [length_seg x h1 (by omega)]
    rcases Nat.lt_or_ge mid hi with h | h
    · rw [length_seg x (by omega) h3]
      omega
    · rw [seg_empty x (by omega)]
      simp
      omega
  · intro n hn1 hn2
    rw [getElem_seg x h3 hn1]
    rw [length_seg x (by omega) h3] at hn1
    rcases Nat.lt_or_ge n (mid + 1 - lo) with h | h
    · rw [List.getElem_append_left (by rw [length_seg x h1 (by omega)]; omega)]
      rw [getElem_seg x (by omega)]
    · have hmidhi : mid < hi := by omega
      rw [List.getElem_append_right (by rw [length_seg x h1 (by omega)]; omega)]
      rw [getElem_seg x h3]
      rw [length_seg x h1 (by omega)]
      congr 1
      omega

theorem seg_full (x : List Int) (h : 0 < x.length) :
    seg x 0 (x.length - 1) = x := by
  unfold seg
  rw [List.drop_zero, show x.length - 1 + 1 - 0 = x.length by omega, List.take_length]

/-- Selection structure of the source merge loop, as a function on the two
sub-run value lists: right run if the left is exhausted, left run if the right
is exhausted, otherwise the right head only when the left head is strictly
greater. -/
def mergeLists : List Int → List Int → List Int
  | [], ys => ys
  | x :: xs, [] => x :: mergeLists xs []
  | x :: xs, y :: ys =>
    if x > y then y :: mergeLists (x :: xs) ys else x :: mergeLists xs (y :: ys)

/-- Modelled from the spec: the merge step "repeatedly selects the smaller of
the two sub-run heads (ties favor the left/lower-index run)", and when one
run is exhausted the remainder of the other is copied through. -/
def specMergeTieLeft : List Int → List Int → List Int
  | [], ys => ys
  | x :: xs, [] => x :: specMergeTieLeft xs []
  | x :: xs, y :: ys =>
    if x ≤ y then x :: specMergeTieLeft xs (y :: ys) else y :: specMergeTieLeft (x :: xs) ys

theorem mergeLists_eq_spec : ∀ xs ys, mergeLists xs ys = specMergeTieLeft xs ys := by
  intro xs ys
  induction xs, ys using mergeLists.induct with
  | case1 ys => simp only [mergeLists, specMergeTieLeft]
  | case2 x xs ih => simp only [mergeLists, specMergeTieLeft, ih]
  | case3 x xs y ys hgt ih =>
    simp only [mergeLists, specMergeTieLeft]
    rw [if_pos hgt, if_neg (by omega), ih]
  | case4 x xs y ys hle ih =>
    simp only [mergeLists, specMergeTieLeft]
    rw [if_neg hle, if_pos (by omega), ih]

theorem mergeLists_perm : ∀ xs ys, (mergeLists xs ys).Perm (xs ++ ys) := by
  intro xs ys
  induction xs, ys using mergeLists.induct with
  | case1 ys => simp [mergeLists]
  | case2 x xs ih =>
    simp only [mergeLists]
    simpa using ih.cons x
  | case3 x xs y ys hgt ih =>
    simp only [mergeLists]
    rw [if_pos hgt]
    refine (ih.cons y).trans ?_
    exact (List.perm_middle.symm : (y :: (x :: xs ++ ys)).Perm ((x :: xs) ++ y :: ys))
  | case4 x xs y ys hle ih =>
    simp only [mergeLists]
    rw [if_neg hle]
    simpa using ih.cons x

theorem mergeLists_sorted : ∀ xs ys, xs.Sorted (· ≤ ·) → ys.Sorted (· ≤ ·) →
    (mergeLists xs ys).Sorted (· ≤ ·) := by
  intro xs ys
  induction xs, ys using mergeLists.induct with
  | case1 ys =>
    intro _ hy
    simpa only [mergeLists] using hy
  | case2 x xs ih =>
    intro hx _
    simp only [mergeLists]
    rw [List.sorted_cons]
    rw [List.sorted_cons] at hx
    refine ⟨?_, ih hx.2 (by simp)⟩
    intro b hb
    have : b ∈ xs ++ ([] : List Int) := (mergeLists_perm xs []).mem_iff.mp hb
    simp at this
    exact hx.1 b this
  | case3 x xs y ys hgt ih =>
    intro hx hy
    rw [List.sorted_cons] at hy
    simp only [mergeLists]
    rw [if_pos hgt, List.sorted_cons]
    refine ⟨?_, ih hx hy.2⟩
    intro b hb
    have : b ∈ (x :: xs) ++ ys := (mergeLists_perm (x :: xs) ys).mem_iff.mp hb
    rw [List.mem_append] at this
    rcases this with hbx | hby
    · rcases List.mem_cons.mp hbx with rfl | hbx'
      · omega
      · rw [List.sorted_cons] at hx
        have := hx.1 b hbx'
        omega
    · exact hy.1 b hby
  | case4 x xs y ys hle ih =>
    intro hx hy
    rw [List.sorted_cons] at hx
    simp only [mergeLists]
    rw [if_neg hle, List.sorted_cons]
    refine ⟨?_, ih hx.2 hy⟩
    intro b hb
    have : b ∈ xs ++ (y :: ys) := (mergeLists_perm xs (y :: ys)).mem_iff.mp hb
    rw [List.mem_append] at this
    rcases this with hbx | hby
    · exact hx.1 b hbx
    · rcases List.mem_cons.mp hby with rfl | hby'
      · omega
      · rw [List.sorted_cons] at hy
        have := hy.1 b hby'
        omega

/-- The writing loop of `merge`: `k` runs up to `hi`; `i` and `j` are the
cursors into the buffered left `[lo..mid]` and right `[mid+1..hi]` sub-runs.
The branch order matches the source: left run exhausted, right run exhausted,
left head strictly greater, otherwise take the left head. -/
def mergeLoop (aux : Nat → Int) (mid hi : Nat) (a : List Int) (i j k : Nat) :
    List Int × List Move :=
  if k ≤ hi then
    if i > mid then
      (Prod.fst (mergeLoop aux mid hi (a.set k (aux j)) i (j + 1) (k + 1)),
        Move.setValueAtIndex k (aux j) ::
          Prod.snd (mergeLoop aux mid hi (a.set k (aux j)) i (j + 1) (k + 1)))
    else if j > hi then
      (Prod.fst (mergeLoop aux mid hi (a.set k (aux i)) (i + 1) j (k + 1)),
        Move.setValueAtIndex k (aux i) ::
          Prod.snd (mergeLoop aux mid hi (a.set k (aux i)) (i + 1) j (k + 1)))
    else if aux i > aux j then
      (Prod.fst (mergeLoop aux mid hi (a.set k (aux j)) i (j + 1) (k + 1)),
        Move.setValueAtIndex k (aux j) ::
          Prod.snd (mergeLoop aux mid hi (a.set k (aux j)) i (j + 1) (k + 1)))
    else
      (Prod.fst (mergeLoop aux mid hi (a.set k (aux i)) (i + 1) j (k + 1)),
        Move.setValueAtIndex k (aux i) ::
          Prod.snd (mergeLoop aux mid hi (a.set k (aux i)) (i + 1) j (k + 1)))
  else (a, [])
termination_by hi + 1 - k

theorem mergeLoop_stop {aux : Nat → Int} {mid hi : Nat} {a : List Int}
    {i j k : Nat} (h : ¬ k ≤ hi) : mergeLoop aux mid hi a i j k = (a, []) := by
  rw [mergeLoop, if_neg h]

theorem mergeLoop_eq1 {aux : Nat → Int} {mid hi : Nat} {a : List Int}
    {i j k : Nat} (hk : k ≤ hi) (h1 : i > mid) :
    mergeLoop aux mid hi a i j k =
      ((mergeLoop aux mid hi (a.set k (aux j)) i (j + 1) (k + 1)).1,
        Move.setValueAtIndex k (aux j) ::
          (mergeLoop aux mid hi (a.set k (aux j)) i (j + 1) (k + 1)).2) := by
  rw [mergeLoop, if_pos hk, if_pos h1]

theorem mergeLoop_eq2 {aux : Nat → Int} {mid hi : Nat} {a : List Int}
    {i j k : Nat} (hk : k ≤ hi) (h1 : ¬ i > mid) (h2 : j > hi) :
    mergeLoop aux mid hi a i j k =
      ((mergeLoop aux mid hi (a.set k (aux i)) (i + 1) j (k + 1)).1,
        Move.setValueAtIndex k (aux i) ::
          (mergeLoop aux mid hi (a.set k (aux i)) (i + 1) j (k + 1)).2) := by
  rw [mergeLoop, if_pos hk, if_neg h1, if_pos h2]

theorem mergeLoop_eq3 {aux : Nat → Int} {mid hi : Nat} {a : List Int}
    {i j k : Nat} (hk : k ≤ hi) (h1 : ¬ i > mid) (h2 : ¬ j > hi)
    (h3 : aux i > aux j) :
    mergeLoop aux mid hi a i j k =
      ((mergeLoop aux mid hi (a.set k (aux j)) i (j + 1) (k + 1)).1,
        Move.setValueAtIndex k (aux j) ::
          (mergeLoop aux mid hi (a.set k (aux j)) i (j + 1) (k + 1)).2) := by
  rw [mergeLoop, if_pos hk, if_neg h1, if_neg h2, if_pos h3]

theorem mergeLoop_eq4 {aux : Nat → Int} {mid hi : Nat} {a : List Int}
    {i j k : Nat} (hk : k ≤ hi) (h1 : ¬ i > mid) (h2 : ¬ j > hi)
    (h3 : ¬ aux i > aux j) :
    mergeLoop aux mid hi a i j k =
      ((mergeLoop aux mid hi (a.set k (aux i)) (i + 1) j (k + 1)).1,
        Move.setValueAtIndex k (aux i) ::
          (mergeLoop aux mid hi (a.set k (aux i)) (i + 1) j (k + 1)).2) := by
  rw [mergeLoop, if_pos hk, if_neg h1, if_neg h2, if_neg h3]

/-- Packaging step for one iteration of the merge loop: the write of `v` at
`k` followed by a run of the loop on positions `k+1..hi`. -/
theorem mergeStep_pack {a : List Int} {k hi : Nat} (v : Int) {rest : List Int}
    (r : List Int × List Move) (hk : k ≤ hi) (hlen : hi < a.length)
    (hr1 : r.1.length = a.length)
    (hr2 : ∀ m, m < k + 1 ∨ hi < m → aget r.1 m = aget (a.set k v) m)
    (hr3 : seg r.1 (k + 1) hi = rest)
    (hr4 : r.2 = (List.range' (k + 1) (hi + 1 - (k + 1))).map
      (fun p => Move.setValueAtIndex p (aget r.1 p)))
    (hr5 : replay (a.set k v) r.2 = r.1) :
    r.1.length = a.length ∧
    (∀ m, m < k ∨ hi < m → aget r.1 m = aget a m) ∧
    seg r.1 k hi = v :: rest ∧
    Move.setValueAtIndex k v :: r.2 = (List.range' k (hi + 1 - k)).map
      (fun p => Move.setValueAtIndex p (aget r.1 p)) ∧
    replay a (Move.setValueAtIndex k v :: r.2) = r.1 := by
  have hgk : aget r.1 k = v := by
    rw [hr2 k (Or.inl (by omega))]
    exact aget_set_self a (by omega) v
  refine ⟨hr1, ?_, ?_, ?_, ?_⟩
  · intro m hm
    rw [hr2 m (by omega)]
    exact aget_set_ne a (by omega) v
  · rw [seg_cons r.1 hk (by omega), hgk, hr3]
  · rw [show hi + 1 - k = (hi + 1 - (k + 1)) + 1 by omega, List.range'_succ,
      List.map_cons, hgk, hr4]
  · rw [replay_cons]
    exact hr5

theorem mergeLoop_spec (aux : Nat → Int) (mid hi : Nat) :
    ∀ (a : List Int) (i j k : Nat),
    hi < a.length →
    hi + 1 - k = (mid + 1 - i) + (hi + 1 - j) →
    (mergeLoop aux mid hi a i j k).1.length = a.length ∧
    (∀ m, m < k ∨ hi < m → aget (mergeLoop aux mid hi a i j k).1 m = aget a m) ∧
    seg (mergeLoop aux mid hi a i j k).1 k hi
      = mergeLists (auxSeg aux i mid) (auxSeg aux j hi) ∧
    (mergeLoop aux mid hi a i j k).2 = (List.range' k (hi + 1 - k)).map
      (fun p => Move.setValueAtIndex p (aget (mergeLoop aux mid hi a i j k).1 p)) ∧
    replay a (mergeLoop aux mid hi a i j k).2 = (mergeLoop aux mid hi a i j k).1 := by
  intro a i j k
  induction a, i, j, k using mergeLoop.induct aux mid hi with
  | case1 a i j k hk h1 ih =>
    intro hlen hcount
    have hjhi : j ≤ hi := by omega
    obtain ⟨ih1, ih2, ih3, ih4, ih5⟩ := ih (by simpa using hlen) (by omega)
    rw [mergeLoop_eq1 hk h1]
    have pack := mergeStep_pack (aux j) _ hk hlen (by simpa using ih1) ih2 ih3 ih4 ih5
    refine ⟨pack.1, pack.2.1, ?_, pack.2.2.2.1, pack.2.2.2.2⟩
    rw [pack.2.2.1]
    rw [auxSeg_empty aux (show mid + 1 ≤ i by omega), auxSeg_cons aux hjhi]
    simp only [mergeLists]
  | case2 a i j k hk h1 h2 ih =>
    intro hlen hcount
    have himid : i ≤ mid := by omega
    obtain ⟨ih1, ih2, ih3, ih4, ih5⟩ := ih (by simpa using hlen) (by omega)
    rw [mergeLoop_eq2 hk h1 h2]
    have pack := mergeStep_pack (aux i) _ hk hlen (by simpa using ih1) ih2 ih3 ih4 ih5
    refine ⟨pack.1, pack.2.1, ?_, pack.2.2.2.1, pack.2.2.2.2⟩
    rw [pack.2.2.1]
    rw [auxSeg_empty aux (show hi + 1 ≤ j by omega), auxSeg_cons aux himid]
    simp only [mergeLists]
  | case3 a i j k hk h1 h2 h3 ih =>
    intro hlen hcount
    obtain ⟨ih1, ih2, ih3, ih4, ih5⟩ := ih (by simpa using hlen) (by omega)
    rw [mergeLoop_eq3 hk h1 h2 h3]
    have pack := mergeStep_pack (aux j) _ hk hlen (by simpa using ih1) ih2 ih3 ih4 ih5
    refine ⟨pack.1, pack.2.1, ?_, pack.2.2.2.1, pack.2.2.2.2⟩
    rw [pack.2.2.1]
    rw [auxSeg_cons aux (show i ≤ mid by omega), auxSeg_cons aux (show j ≤ hi by omega)]
    simp only [mergeLists]
    rw [if_pos h3]
  | case4 a i j k hk h1 h2 h3 ih =>
    intro hlen hcount
    obtain ⟨ih1, ih2, ih3, ih4, ih5⟩ := ih (by simpa using hlen) (by omega)
    rw [mergeLoop_eq4 hk h1 h2 h3]
    have pack := mergeStep_pack (aux i) _ hk hlen (by simpa using ih1) ih2 ih3 ih4 ih5
    refine ⟨pack.1, pack.2.1, ?_, pack.2.2.2.1, pack.2.2.2.2⟩
    rw [pack.2.2.1]
    rw [auxSeg_cons aux (show i ≤ mid by omega), auxSeg_cons aux (show j ≤ hi by omega)]
    simp only [mergeLists]
    rw [if_neg h3]
  | case5 a i j k hk =>
    intro hlen hcount
    rw [mergeLoop_stop hk]
    refine ⟨rfl, fun m _ => rfl, ?_, ?_, rfl⟩
    · rw [seg_empty a (by omega), auxSeg_empty aux (by omega),
        auxSeg_empty aux (by omega)]
      simp only [mergeLists]
    · rw [show hi + 1 - k = 0 by omega]
      rfl

/-- Embedding of `merge(a, aux, lo, mid, hi)`: copy `[lo..hi]` into the
auxiliary buffer, then run the write-back loop from `i = lo`, `j = mid + 1`,
`k = lo`. -/
def merge (a : List Int) (aux : Nat → Int) (lo mid hi : Nat) :
    List Int × (Nat → Int) × List Move :=
  ((mergeLoop (copyToAux a aux lo hi) mid hi a lo (mid + 1) lo).1,
    copyToAux a aux lo hi,
    (mergeLoop (copyToAux a aux lo hi) mid hi a lo (mid + 1) lo).2)

theorem auxSeg_copyToAux (a : List Int) (aux : Nat → Int) {lo hi p q : Nat}
    (h1 : lo ≤ p) (h2 : q ≤ hi) (h3 : q < a.length) :
    auxSeg (copyToAux a aux lo hi) p q = seg a p q := by
  rcases le_or_lt p q with hpq | hpq
  · apply List.ext_getElem
    · rw [length_seg a hpq h3]
      simp [auxSeg]
    · intro n hn1 hn2
      rw [getElem_seg a h3 hn2]
      unfold auxSeg at hn1 ⊢
      rw [List.getElem_map, List.getElem_range']
      simp only [List.length_map, List.length_range'] at hn1
      rw [copyToAux_spec a aux lo hi, if_pos ⟨by omega, by omega⟩]
      rw [one_mul]
  · rw [auxSeg_empty _ (by omega), seg_empty a (by omega)]

theorem merge_spec (a : List Int) (aux : Nat → Int) {lo mid hi : Nat}
    (h1 : lo ≤ mid) (h2 : mid ≤ hi) (h3 : hi < a.length) :
    (merge a aux lo mid hi).1.length = a.length ∧
    (∀ m, m < lo ∨ hi < m → aget (merge a aux lo mid hi).1 m = aget a m) ∧
    seg (merge a aux lo mid hi).1 lo hi
      = mergeLists (seg a lo mid) (seg a (mid + 1) hi) ∧
    (merge a aux lo mid hi).2.2 = (List.range' lo (hi + 1 - lo)).map
      (fun p => Move.setValueAtIndex p (aget (merge a aux lo mid hi).1 p)) ∧
    replay a (merge a aux lo mid hi).2.2 = (merge a aux lo mid hi).1 := by
  obtain ⟨s1, s2, s3, s4, s5⟩ := mergeLoop_spec (copyToAux a aux lo hi) mid hi
    a lo (mid + 1) lo h3 (by omega)
  unfold merge
  refine ⟨s1, s2, ?_, s4, s5⟩
  rw [s3, auxSeg_copyToAux a aux (le_refl lo) h2 (by omega),
    auxSeg_copyToAux a aux (by omega) (le_refl hi) h3]

/-- Embedding of `mergeSort(a, aux, lo, hi)` (top-down, Sedgewick–Wayne):
return at once when `hi <= lo`, otherwise recurse on the two halves around
`mid = lo + floor((hi - lo) / 2)` and merge. -/
def mergeSort (a : List Int) (aux : Nat → Int) (lo hi : Nat) :
    List Int × (Nat → Int) × List Move :=
  if hi ≤ lo then (a, aux, [])
  else
    let mid := lo + (hi - lo) / 2
    let r1 := mergeSort a aux lo mid
    let r2 := mergeSort r1.1 r1.2.1 (mid + 1) hi
    let r3 := merge r2.1 r2.2.1 lo mid hi
    (r3.1, r3.2.1, r1.2.2 ++ (r2.2.2 ++ r3.2.2))
termination_by hi - lo
decreasing_by
  · omega
  · omega

theorem mergeSort_stop {a : List Int} {aux : Nat → Int} {lo hi : Nat}
    (h : hi ≤ lo) : mergeSort a aux lo hi = (a, aux, []) := by
  rw [mergeSort, if_pos h]

theorem mergeSort_step {a : List Int} {aux : Nat → Int} {lo hi : Nat}
    (h : ¬ hi ≤ lo) :
    mergeSort a aux lo hi =
      (let mid := lo + (hi - lo) / 2
       let r1 := mergeSort a aux lo mid
       let r2 := mergeSort r1.1 r1.2.1 (mid + 1) hi
       let r3 := merge r2.1 r2.2.1 lo mid hi
       (r3.1, r3.2.1, r1.2.2 ++ (r2.2.2 ++ r3.2.2))) := by
  rw [mergeSort, if_neg h]

theorem mergeSort_eq {a : List Int} {aux : Nat → Int} {lo hi : Nat}
    (h : ¬ hi ≤ lo) :
    mergeSort a aux lo hi =
      ((merge
          (mergeSort (mergeSort a aux lo (lo + (hi - lo) / 2)).1
            (mergeSort a aux lo (lo + (hi - lo) / 2)).2.1
            (lo + (hi - lo) / 2 + 1) hi).1
          (mergeSort (mergeSort a aux lo (lo + (hi - lo) / 2)).1
            (mergeSort a aux lo (lo + (hi - lo) / 2)).2.1
            (lo + (hi - lo) / 2 + 1) hi).2.1
          lo (lo + (hi - lo) / 2) hi).1,
        (merge
          (mergeSort (mergeSort a aux lo (lo + (hi - lo) / 2)).1
            (mergeSort a aux lo (lo + (hi - lo) / 2)).2.1
            (lo + (hi - lo) / 2 + 1) hi).1
          (mergeSort (mergeSort a aux lo (lo + (hi - lo) / 2)).1
            (mergeSort a aux lo (lo + (hi - lo) / 2)).2.1
            (lo + (hi - lo) / 2 + 1) hi).2.1
          lo (lo + (hi - lo) / 2) hi).2.1,
        (mergeSort a aux lo (lo + (hi - lo) / 2)).2.2 ++
          ((mergeSort (mergeSort a aux lo (lo + (hi - lo) / 2)).1
            (mergeSort a aux lo (lo + (hi - lo) / 2)).2.1
            (lo + (hi - lo) / 2 + 1) hi).2.2 ++
          (merge
            (mergeSort (mergeSort a aux lo (lo + (hi - lo) / 2)).1
              (mergeSort a aux lo (lo + (hi - lo) / 2)).2.1
              (lo + (hi - lo) / 2 + 1) hi).1
            (mergeSort (mergeSort a aux lo (lo + (hi - lo) / 2)).1
              (mergeSort a aux lo (lo + (hi - lo) / 2)).2.1
              (lo + (hi - lo) / 2 + 1) hi).2.1
            lo (lo + (hi - lo) / 2) hi).2.2)) := by
  rw [mergeSort_step h]

theorem mergeSort_spec_aux : ∀ (n : Nat) (a : List Int) (aux : Nat → Int)
    (lo hi : Nat), hi - lo ≤ n → hi < a.length →
    (mergeSort a aux lo hi).1.length = a.length ∧
    (∀ m, m < lo ∨ hi < m → aget (mergeSort a aux lo hi).1 m = aget a m) ∧
    (seg (mergeSort a aux lo hi).1 lo hi).Perm (seg a lo hi) ∧
    (seg (mergeSort a aux lo hi).1 lo hi).Sorted (· ≤ ·) ∧
    replay a (mergeSort a aux lo hi).2.2 = (mergeSort a aux lo hi).1 := by
  intro n
  induction n with
  | zero =>
    intro a aux lo hi hn hlen
    rw [mergeSort_stop (by omega)]
    refine ⟨rfl, fun m _ => rfl, List.Perm.refl _, ?_, rfl⟩
    rcases Nat.lt_or_ge hi lo with hl | hl
    · rw [seg_empty a (by omega)]
      exact List.sorted_nil
    · have : lo = hi := by omega
      subst this
      rw [seg_cons a (le_refl lo) hlen, seg_empty a (by omega)]
      exact List.sorted_singleton _
  | succ n ihn =>
    intro a aux lo hi hn hlen
    by_cases h : hi ≤ lo
    · rw [mergeSort_stop h]
      refine ⟨rfl, fun m _ => rfl, List.Perm.refl _, ?_, rfl⟩
      rcases Nat.lt_or_ge hi lo with hl | hl
      · rw [seg_empty a (by omega)]
        exact List.sorted_nil
      · have : lo = hi := by omega
        subst this
        rw [seg_cons a (le_refl lo) hlen, seg_empty a (by omega)]
        exact List.sorted_singleton _
    · rw [mergeSort_eq h]
      simp only []
      set mid := lo + (hi - lo) / 2 with hmdef
      have hmid1 : lo ≤ mid := by omega
      have hmid2 : mid < hi := by omega
      obtain ⟨l1, u1, p1, s1, rp1⟩ := ihn a aux lo mid (by omega) (by omega)
      set r1 := mergeSort a aux lo mid with hr1
      obtain ⟨l2, u2, p2, s2, rp2⟩ := ihn r1.1 r1.2.1 (mid + 1) hi (by omega) (by omega)
      set r2 := mergeSort r1.1 r1.2.1 (mid + 1) hi with hr2
      obtain ⟨m1, m2, m3, m4, m5⟩ :=
        @merge_spec r2.1 r2.2.1 lo mid hi hmid1 (by omega) (by omega)
      set r3 := merge r2.1 r2.2.1 lo mid hi with hr3
      have e1 : seg r2.1 lo mid = seg r1.1 lo mid :=
        seg_eq_of_agree l2 (by omega) (fun m hm1 hm2 => u2 m (by omega))
      refine ⟨by omega, ?_, ?_, ?_, ?_⟩
      · intro m hm
        rw [m2 m (by omega), u2 m (by omega), u1 m (by omega)]
      · have c1 : (seg r3.1 lo hi).Perm (seg r1.1 lo mid ++ seg r2.1 (mid + 1) hi) := by
          rw [m3, e1]
          exact mergeLists_perm _ _
        have c2 : (seg r1.1 lo mid ++ seg r2.1 (mid + 1) hi).Perm
            (seg a lo mid ++ seg a (mid + 1) hi) := by
          refine List.Perm.append p1 (p2.trans ?_)
          rw [seg_eq_of_agree l1 (by omega)
            (fun m hm1 hm2 => u1 m (by omega))]
        refine (c1.trans c2).trans ?_
        rw [← seg_split a hmid1 (by omega) hlen]
      · rw [m3, e1]
        exact mergeLists_sorted _ _ s1 s2
      · rw [replay_append, replay_append, rp1, rp2, m5]

/-- Embedding of the Merge Sort option of `onOptionClicked`: the auxiliary
member array is cleared, then `mergeSort(generatedArray, auxiliaryArray, 0,
generatedArray.length - 1)` runs; the result keeps the array and the move
log. -/
def mergeSortTop (a : List Int) : List Int × List Move :=
  ((mergeSort a (fun _ => 0) 0 (a.length - 1)).1,
    (mergeSort a (fun _ => 0) 0 (a.length - 1)).2.2)

theorem mergeSortTop_correct (a : List Int) :
    (mergeSortTop a).1 = List.insertionSort (· ≤ ·) a ∧
    replay a (mergeSortTop a).2 = (mergeSortTop a).1 := by
  unfold mergeSortTop
  cases ha : a with
  | nil =>
    rw [mergeSort_stop (by simp)]
    exact ⟨rfl, rfl⟩
  | cons x xs =>
    rw [← ha]
    have hlen : 0 < a.length := by rw [ha]; simp
    obtain ⟨l1, u1, p1, s1, rp1⟩ :=
      mergeSort_spec_aux a.length a (fun _ => 0) 0 (a.length - 1) (by omega) (by omega)
    set r := mergeSort a (fun _ => 0) 0 (a.length - 1) with hr
    have hseg1 : seg r.1 0 (a.length - 1) = r.1 := by
      have := seg_full r.1 (by omega)
      rwa [l1] at this
    have hseg2 : seg a 0 (a.length - 1) = a := seg_full a hlen
    rw [hseg1, hseg2] at p1
    rw [hseg1] at s1
    exact ⟨eq_insertionSort_of_sorted_perm p1 s1, rp1⟩

/-- The low-cursor scan of `partition`: advance while `array[start] <= pivot`,
breaking out as soon as `start >= hi`. -/
def scanUp (a : List Int) (pivot : Int) (s hi : Nat) : Nat :=
  if aget a s ≤ pivot then
    if s ≥ hi then s else scanUp a pivot (s + 1) hi
  else s
termination_by hi - s

/-- The high-cursor scan of `partition`: retreat while `array[end] > pivot`.
Indices are naturals; in every call made by `partition` the pivot value
stored at `lo` stops the scan at an index at least `lo`, so the base case at
0 coincides with the source (where the scan would stop at `lo` as well). -/
def scanDown (a : List Int) (pivot : Int) : Nat → Nat
  | 0 => 0
  | e + 1 => if aget a (e + 1) > pivot then scanDown a pivot e else e + 1

/-- The `while (true)` loop of `partition`, with explicit fuel: run both
scans; if the cursors met or crossed, swap the pivot into place, record
`'swap-pivot'` and return the high cursor; otherwise swap the two scanned
entries, record `'swap-element'` and iterate. -/
def partitionLoop (pivot : Int) (lo hi : Nat) :
    Nat → List Int → Nat → Nat → Option (List Int × List Move × Nat)
  | 0, _, _, _ => none
  | fuel + 1, a, s, e =>
    if scanUp a pivot s hi ≥ scanDown a pivot e then
      some (swap a lo (scanDown a pivot e),
        [Move.swapPivot lo (scanDown a pivot e)], scanDown a pivot e)
    else
      match partitionLoop pivot lo hi fuel
          (swap a (scanUp a pivot s hi) (scanDown a pivot e))
          (scanUp a pivot s hi) (scanDown a pivot e) with
      | none => none
      | some (a', ms, p) =>
          some (a', Move.swapElement (scanUp a pivot s hi) (scanDown a pivot e) :: ms, p)

/-- Embedding of `partition(array, lo, hi)`: first element of the range as
pivot, cursors starting at `lo` and `hi`.  The fuel `hi + 2` is enough for
every in-range call, which is proved below. -/
def partition (a : List Int) (lo hi : Nat) : Option (List Int × List Move × Nat) :=
  partitionLoop (aget a lo) lo hi (hi + 2) a lo hi

/-- Embedding of `quickSort(array, lo, hi)` with explicit recursion fuel:
return when `lo >= hi`, otherwise partition and recurse on the two sides of
the returned pivot position. -/
def quickSort : Nat → List Int → Nat → Nat → Option (List Int × List Move)
  | 0, _, _, _ => none
  | fuel + 1, a, lo, hi =>
    if lo ≥ hi then some (a, [])
    else match partition a lo hi with
      | none => none
      | some (a1, ms1, p) =>
        match quickSort fuel a1 lo (p - 1) with
        | none => none
        | some (a2, ms2) =>
          match quickSort fuel a2 (p + 1) hi with
          | none => none
          | some (a3, ms3) => some (a3, ms1 ++ (ms2 ++ ms3))

/-- Embedding of the Quick Sort option of `onOptionClicked`:
`quickSort(generatedArray, 0, generatedArray.length - 1)`; the fuel
`length + 1` is enough, which is proved below. -/
def quickSortTop (a : List Int) : Option (List Int × List Move) :=
  quickSort (a.length + 1) a 0 (a.length - 1)

theorem scanUp_ge (a : List Int) (pivot : Int) : ∀ s hi, s ≤ scanUp a pivot s hi := by
  intro s hi
  induction s, hi using scanUp.induct a pivot with
  | case1 s hi h1 h2 => rw [scanUp, if_pos h1, if_pos h2]
  | case2 s hi h1 h2 ih =>
    rw [scanUp, if_pos h1, if_neg h2]
    omega
  | case3 s hi h1 => rw [scanUp, if_neg h1]

theorem scanUp_le (a : List Int) (pivot : Int) : ∀ s hi, s ≤ hi →
    scanUp a pivot s hi ≤ hi := by
  intro s hi
  induction s, hi using scanUp.induct a pivot with
  | case1 s hi h1 h2 =>
    intro h
    rw [scanUp, if_pos h1, if_pos h2]
    exact h
  | case2 s hi h1 h2 ih =>
    intro h
    rw [scanUp, if_pos h1, if_neg h2]
    exact ih (by omega)
  | case3 s hi h1 =>
    intro h
    rw [scanUp, if_neg h1]
    exact h

theorem scanUp_scanned (a : List Int) (pivot : Int) : ∀ s hi m, s ≤ m →
    m < scanUp a pivot s hi → aget a m ≤ pivot := by
  intro s hi
  induction s, hi using scanUp.induct a pivot with
  | case1 s hi h1 h2 =>
    intro m hm1 hm2
    rw [scanUp, if_pos h1, if_pos h2] at hm2
    omega
  | case2 s hi h1 h2 ih =>
    intro m hm1 hm2
    rw [scanUp, if_pos h1, if_neg h2] at hm2
    rcases Nat.eq_or_lt_of_le hm1 with rfl | hm
    · exact h1
    · exact ih m (by omega) hm2
  | case3 s hi h1 =>
    intro m hm1 hm2
    rw [scanUp, if_neg h1] at hm2
    omega

theorem scanUp_stop (a : List Int) (pivot : Int) : ∀ s hi,
    hi ≤ scanUp a pivot s hi ∨ pivot < aget a (scanUp a pivot s hi) := by
  intro s hi
  induction s, hi using scanUp.induct a pivot with
  | case1 s hi h1 h2 =>
    rw [scanUp, if_pos h1, if_pos h2]
    omega
  | case2 s hi h1 h2 ih =>
    rw [scanUp, if_pos h1, if_neg h2]
    exact ih
  | case3 s hi h1 =>
    rw [scanUp, if_neg h1]
    omega

theorem scanUp_eq_self {a : List Int} {pivot : Int} {s hi : Nat}
    (h : ¬ aget a s ≤ pivot) : scanUp a pivot s hi = s := by
  rw [scanUp, if_neg h]

theorem scanUp_adv {a : List Int} {pivot : Int} {s hi : Nat}
    (h1 : aget a s ≤ pivot) (h2 : s < hi) : s + 1 ≤ scanUp a pivot s hi := by
  rw [scanUp, if_pos h1, if_neg (by omega)]
  exact scanUp_ge a pivot (s + 1) hi

theorem scanDown_le (a : List Int) (pivot : Int) : ∀ e, scanDown a pivot e ≤ e := by
  intro e
  induction e with
  | zero => rw [scanDown]
  | succ n ih =>
    rw [scanDown]
    split
    · omega
    · omega

theorem scanDown_scanned (a : List Int) (pivot : Int) : ∀ e m,
    scanDown a pivot e < m → m ≤ e → pivot < aget a m := by
  intro e
  induction e with
  | zero =>
    intro m hm1 hm2
    rw [scanDown] at hm1
    omega
  | succ n ih =>
    intro m hm1 hm2
    rw [scanDown] at hm1
    split at hm1
    · next hc =>
      rcases Nat.eq_or_lt_of_le hm2 with rfl | hm
      · exact hc
      · exact ih m hm1 (by omega)
    · omega

theorem scanDown_stop_ge {a : List Int} {pivot : Int} {lo : Nat}
    (hpiv : aget a lo = pivot) : ∀ e, lo ≤ e →
    lo ≤ scanDown a pivot e ∧ aget a (scanDown a pivot e) ≤ pivot := by
  intro e
  induction e with
  | zero =>
    intro he
    rw [scanDown]
    have : lo = 0 := by omega
    subst this
    exact ⟨le_refl 0, le_of_eq hpiv⟩
  | succ n ih =>
    intro he
    rw [scanDown]
    split
    · next hc =>
      have hne : lo ≠ n + 1 := by
        intro h
        subst h
        rw [hpiv] at hc
        omega
      exact ih (by omega)
    · next hc => exact ⟨he, by omega⟩

theorem partitionLoop_break {pivot : Int} {lo hi fuel : Nat} {a : List Int}
    {s e : Nat} (h : scanUp a pivot s hi ≥ scanDown a pivot e) :
    partitionLoop pivot lo hi (fuel + 1) a s e =
      some (swap a lo (scanDown a pivot e),
        [Move.swapPivot lo (scanDown a pivot e)], scanDown a pivot e) := by
  rw [partitionLoop, if_pos h]

theorem partitionLoop_rec {pivot : Int} {lo hi fuel : Nat} {a : List Int}
    {s e : Nat} (h : ¬ scanUp a pivot s hi ≥ scanDown a pivot e) :
    partitionLoop pivot lo hi (fuel + 1) a s e =
      match partitionLoop pivot lo hi fuel
          (swap a (scanUp a pivot s hi) (scanDown a pivot e))
          (scanUp a pivot s hi) (scanDown a pivot e) with
      | none => none
      | some (a', ms, p) =>
          some (a', Move.swapElement (scanUp a pivot s hi) (scanDown a pivot e) :: ms, p) := by
  rw [partitionLoop, if_neg h]

theorem partitionLoop_spec : ∀ (fuel : Nat) (a : List Int) (pivot : Int)
    (lo hi s e : Nat),
    hi < a.length → lo ≤ s → s ≤ hi → lo ≤ e → e ≤ hi →
    aget a lo = pivot →
    (∀ m, lo ≤ m → m < s → aget a m ≤ pivot) →
    (∀ m, e < m → m ≤ hi → pivot < aget a m) →
    (e - s) + (if aget a s ≤ pivot then 0 else 1) + 1 ≤ fuel →
    ∃ a' ms p, partitionLoop pivot lo hi fuel a s e = some (a', ms, p) ∧
      a'.length = a.length ∧
      lo ≤ p ∧ p ≤ hi ∧
      aget a' p = pivot ∧
      (∀ m, lo ≤ m → m < p → aget a' m ≤ pivot) ∧
      (∀ m, p < m → m ≤ hi → pivot < aget a' m) ∧
      (∀ m, m < lo ∨ hi < m → aget a' m = aget a m) ∧
      (∀ m, lo ≤ m → m ≤ hi → ∃ q, lo ≤ q ∧ q ≤ hi ∧ aget a' m = aget a q) ∧
      a'.Perm a ∧
      replay a ms = a' := by
  intro fuel
  induction fuel with
  | zero =>
    intro a pivot lo hi s e _ _ _ _ _ _ _ _ hfuel
    omega
  | succ n ih =>
    intro a pivot lo hi s e hlen hls hshi hle hehi hpiv hlow hhigh hfuel
    have hs'ge : s ≤ scanUp a pivot s hi := scanUp_ge a pivot s hi
    have hs'le : scanUp a pivot s hi ≤ hi := scanUp_le a pivot s hi (by omega)
    have he'le : scanDown a pivot e ≤ e := scanDown_le a pivot e
    obtain ⟨he'ge, he'stop⟩ := scanDown_stop_ge hpiv e hle
    have hlow' : ∀ m, lo ≤ m → m < scanUp a pivot s hi → aget a m ≤ pivot := by
      intro m hm1 hm2
      rcases Nat.lt_or_ge m s with hm | hm
      · exact hlow m hm1 hm
      · exact scanUp_scanned a pivot s hi m hm hm2
    have hhigh' : ∀ m, scanDown a pivot e < m → m ≤ hi → pivot < aget a m := by
      intro m hm1 hm2
      rcases Nat.lt_or_ge e m with hm | hm
      · exact hhigh m hm hm2
      · exact scanDown_scanned a pivot e m hm1 hm
    set s' := scanUp a pivot s hi with hs'
    set e' := scanDown a pivot e with he'
    by_cases hbr : s' ≥ e'
    · have hbrX : scanUp a pivot s hi ≥ scanDown a pivot e := by
        rw [← hs', ← he']
        exact hbr
      refine ⟨swap a lo e', [Move.swapPivot lo e'], e', ?_, by simp, he'ge,
        by omega, ?_, ?_, ?_, ?_, ?_, ?_, ?_⟩
      · rw [partitionLoop_break hbrX, ← he']
      · rw [aget_swap_snd a (by omega)]
        exact hpiv
      · intro m hm1 hm2
        rcases Nat.eq_or_lt_of_le hm1 with heq | hm
        · rw [← heq, aget_swap_fst a (by omega) (by omega)]
          exact he'stop
        · rw [aget_swap_other a (by omega) (by omega)]
          exact hlow' m (by omega) (by omega)
      · intro m hm1 hm2
        rw [aget_swap_other a (by omega) (by omega)]
        exact hhigh' m hm1 hm2
      · intro m hm
        exact aget_swap_other a (by omega) (by omega)
      · intro m hm1 hm2
        by_cases hmlo : m = lo
        · subst hmlo
          exact ⟨e', by omega, by omega, aget_swap_fst a (by omega) (by omega)⟩
        · by_cases hme : m = e'
          · subst hme
            exact ⟨lo, le_refl lo, by omega, aget_swap_snd a (by omega)⟩
          · exact ⟨m, hm1, hm2, aget_swap_other a hmlo hme⟩
      · exact swap_perm a (by omega) (by omega)
      · rfl
    · have hbrX : ¬ scanUp a pivot s hi ≥ scanDown a pivot e := by
        rw [← hs', ← he']
        exact hbr
      have hlos' : lo < s' := by
        rcases Nat.lt_or_ge lo s' with h | h
        · exact h
        · exfalso
          have hslo : s = lo := by omega
          rcases Nat.lt_or_ge lo hi with hlohi | hlohi
          · have hadv : s + 1 ≤ scanUp a pivot s hi := by
              refine scanUp_adv ?_ (by omega)
              rw [hslo, hpiv]
            rw [← hs'] at hadv
            omega
          · omega
      have hchi0 : aget (swap a s' e') s' = aget a e' :=
        aget_swap_fst a (by omega) (by omega)
      have hfuel' : (e' - s') + (if aget (swap a s' e') s' ≤ pivot then 0 else 1) + 1 ≤ n := by
        rw [hchi0, if_pos he'stop]
        by_cases hchi : aget a s ≤ pivot
        · rw [if_pos hchi] at hfuel
          rcases Nat.lt_or_ge s hi with hshi' | hshi'
          · have hadv : s + 1 ≤ scanUp a pivot s hi := scanUp_adv hchi hshi'
            rw [← hs'] at hadv
            omega
          · have hseq : scanUp a pivot s hi = s := by
              rw [scanUp, if_pos hchi, if_pos (by omega)]
            rw [← hs'] at hseq
            omega
        · rw [if_neg hchi] at hfuel
          have hseq : scanUp a pivot s hi = s := scanUp_eq_self hchi
          rw [← hs'] at hseq
          omega
      obtain ⟨a3, ms3, p, ihEq, ihLen, ihPlo, ihPhi, ihPivAt, ihLow, ihHigh,
        ihUnt, ihMem, ihPerm, ihRep⟩ :=
        ih (swap a s' e') pivot lo hi s' e' (by simpa using hlen) (by omega)
          (by omega) (by omega) (by omega)
          (by rw [aget_swap_other a (by omega) (by omega)]; exact hpiv)
          (by
            intro m hm1 hm2
            rw [aget_swap_other a (by omega) (by omega)]
            exact hlow' m hm1 hm2)
          (by
            intro m hm1 hm2
            rw [aget_swap_other a (by omega) (by omega)]
            exact hhigh' m hm1 hm2)
          hfuel'
      refine ⟨a3, Move.swapElement s' e' :: ms3, p, ?_, by simpa using ihLen,
        ihPlo, ihPhi, ihPivAt, ihLow, ihHigh, ?_, ?_, ?_, ?_⟩
      · rw [partitionLoop_rec hbrX, ← hs', ← he', ihEq]
      · intro m hm
        rw [ihUnt m hm]
        exact aget_swap_other a (by omega) (by omega)
      · intro m hm1 hm2
        obtain ⟨q, hq1, hq2, hq3⟩ := ihMem m hm1 hm2
        by_cases hqs : q = s'
        · subst hqs
          exact ⟨e', by omega, by omega, by rw [hq3, hchi0]⟩
        · by_cases hqe : q = e'
          · subst hqe
            exact ⟨s', by omega, by omega,
              by rw [hq3, aget_swap_snd a (by omega)]⟩
          · exact ⟨q, hq1, hq2, by rw [hq3, aget_swap_other a hqs hqe]⟩
      · exact ihPerm.trans (swap_perm a (by omega) (by omega))
      · rw [replay_cons]
        exact ihRep

theorem partition_spec (a : List Int) {lo hi : Nat} (h1 : lo ≤ hi)
    (h2 : hi < a.length) :
    ∃ a' ms p, partition a lo hi = some (a', ms, p) ∧
      a'.length = a.length ∧
      lo ≤ p ∧ p ≤ hi ∧
      aget a' p = aget a lo ∧
      (∀ m, lo ≤ m → m < p → aget a' m ≤ aget a lo) ∧
      (∀ m, p < m → m ≤ hi → aget a lo < aget a' m) ∧
      (∀ m, m < lo ∨ hi < m → aget a' m = aget a m) ∧
      (∀ m, lo ≤ m → m ≤ hi → ∃ q, lo ≤ q ∧ q ≤ hi ∧ aget a' m = aget a q) ∧
      a'.Perm a ∧
      replay a ms = a' := by
  unfold partition
  exact partitionLoop_spec (hi + 2) a (aget a lo) lo hi lo hi h2 (le_refl lo)
    h1 h1 (le_refl hi) rfl (fun m hm1 hm2 => by omega)
    (fun m hm1 hm2 => by omega)
    (by rw [if_pos (le_refl (aget a lo))]; omega)

theorem quickSort_stop {fuel : Nat} {a : List Int} {lo hi : Nat} (h : lo ≥ hi) :
    quickSort (fuel + 1) a lo hi = some (a, []) := by
  rw [quickSort, if_pos h]

theorem quickSort_rec {fuel : Nat} {a : List Int} {lo hi : Nat} (h : ¬ lo ≥ hi) :
    quickSort (fuel + 1) a lo hi =
      match partition a lo hi with
      | none => none
      | some (a1, ms1, p) =>
        match quickSort fuel a1 lo (p - 1) with
        | none => none
        | some (a2, ms2) =>
          match quickSort fuel a2 (p + 1) hi with
          | none => none
          | some (a3, ms3) => some (a3, ms1 ++ (ms2 ++ ms3)) := by
  rw [quickSort, if_neg h]

theorem quickSort_spec : ∀ (fuel : Nat) (a : List Int) (lo hi : Nat),
    hi < a.length → (hi + 1 - lo) + 1 ≤ fuel →
    ∃ a' ms, quickSort fuel a lo hi = some (a', ms) ∧
      a'.length = a.length ∧
      (∀ m, m < lo ∨ hi < m ∨ hi ≤ lo → aget a' m = aget a m) ∧
      (∀ m, lo ≤ m → m ≤ hi → ∃ q, lo ≤ q ∧ q ≤ hi ∧ aget a' m = aget a q) ∧
      a'.Perm a ∧
      (∀ j k, lo ≤ j → j ≤ k → k ≤ hi → aget a' j ≤ aget a' k) ∧
      replay a ms = a' := by
  intro fuel
  induction fuel with
  | zero =>
    intro a lo hi _ hf
    omega
  | succ n ih =>
    intro a lo hi hlen hf
    by_cases h : lo ≥ hi
    · refine ⟨a, [], quickSort_stop h, rfl, fun m _ => rfl,
        fun m hm1 hm2 => ⟨m, hm1, hm2, rfl⟩, List.Perm.refl a, ?_, rfl⟩
      intro j k hj hjk hk
      have : j = k := by omega
      subst this
      exact le_refl _
    · obtain ⟨a1, ms1, p, pEq, pLen, pPlo, pPhi, pPivAt, pLow, pHigh, pUnt,
        pMem, pPerm, pRep⟩ := @partition_spec a lo hi (by omega) hlen
      obtain ⟨a2, ms2, qEq1, qLen1, qUnt1, qMem1, qPerm1, qSort1, qRep1⟩ :=
        ih a1 lo (p - 1) (by omega) (by omega)
      obtain ⟨a3, ms3, qEq2, qLen2, qUnt2, qMem2, qPerm2, qSort2, qRep2⟩ :=
        ih a2 (p + 1) hi (by omega) (by omega)
      have hp1 : aget a3 p = aget a1 p := by
        rw [qUnt2 p (by omega), qUnt1 p (by omega)]
      have hA : ∀ m, lo ≤ m → m < p → aget a3 m ≤ aget a1 p := by
        intro m hm1 hm2
        rw [qUnt2 m (by omega)]
        obtain ⟨q1, hq1, hq2, hq3⟩ := qMem1 m hm1 (by omega)
        rw [hq3, pPivAt]
        exact pLow q1 hq1 (by omega)
      have hB : ∀ m, p < m → m ≤ hi → aget a1 p < aget a3 m := by
        intro m hm1 hm2
        obtain ⟨q2, hq1, hq2, hq3⟩ := qMem2 m (by omega) hm2
        rw [hq3, qUnt1 q2 (by omega), pPivAt]
        exact pHigh q2 (by omega) hq2
      refine ⟨a3, ms1 ++ (ms2 ++ ms3), ?_, by omega, ?_, ?_, ?_, ?_, ?_⟩
      · rw [quickSort_rec h]
        simp only [pEq, qEq1, qEq2]
      · intro m hm
        rw [qUnt2 m (by omega), qUnt1 m (by omega), pUnt m (by omega)]
      · intro m hm1 hm2
        rcases Nat.lt_or_ge m p with hm | hm
        · rw [qUnt2 m (by omega)]
          obtain ⟨q1, hq1, hq2, hq3⟩ := qMem1 m hm1 (by omega)
          obtain ⟨q, hqa, hqb, hqc⟩ := pMem q1 hq1 (by omega)
          exact ⟨q, hqa, hqb, by rw [hq3, hqc]⟩
        · rcases Nat.eq_or_lt_of_le hm with heq | hm'
          · rw [qUnt2 m (by omega), qUnt1 m (by omega)]
            exact pMem m hm1 hm2
          · obtain ⟨q2, hq1, hq2, hq3⟩ := qMem2 m (by omega) hm2
            obtain ⟨q, hqa, hqb, hqc⟩ := pMem q2 (by omega) hq2
            exact ⟨q, hqa, hqb, by rw [hq3, qUnt1 q2 (by omega), hqc]⟩
      · exact (qPerm2.trans qPerm1).trans pPerm
      · intro j k hj hjk hk
        rcases Nat.lt_or_ge k p with hkp | hkp
        · rw [qUnt2 j (by omega), qUnt2 k (by omega)]
          exact qSort1 j k hj hjk (by omega)
        · rcases Nat.eq_or_lt_of_le hkp with hkeq | hkp'
          · rcases Nat.eq_or_lt_of_le hjk with hjeq | hjk'
            · rw [hjeq]
            · rw [← hkeq, hp1]
              exact hA j hj (by omega)
          · rcases Nat.lt_or_ge j p with hjp | hjp
            · exact le_trans (le_trans (hA j hj hjp) (le_of_lt (hB k hkp' hk)))
                (le_refl _)
            · rcases Nat.eq_or_lt_of_le hjp with hjeq | hjp'
              · rw [← hjeq, hp1]
                exact le_of_lt (hB k hkp' hk)
              · exact qSort2 j k (by omega) hjk hk
      · rw [replay_append, pRep, replay_append, qRep1, qRep2]

theorem quickSortTop_correct (a : List Int) :
    ∃ a' ms, quickSortTop a = some (a', ms) ∧
      a' = List.insertionSort (· ≤ ·) a ∧ replay a ms = a' := by
  unfold quickSortTop
  cases ha : a with
  | nil =>
    exact ⟨[], [], quickSort_stop (by simp), rfl, rfl⟩
  | cons x xs =>
    rw [← ha]
    have hlen : 0 < a.length := by rw [ha]; simp
    obtain ⟨a', ms, hEq, hLen, hUnt, hMem, hPerm, hSort, hRep⟩ :=
      quickSort_spec (a.length + 1) a 0 (a.length - 1) (by omega) (by omega)
    refine ⟨a', ms, hEq, ?_, hRep⟩
    refine eq_insertionSort_of_sorted_perm hPerm ?_
    rw [List.Sorted, List.pairwise_iff_getElem]
    intro i j hi hj hij
    have := hSort i j (by omega) (by omega) (by omega)
    rwa [aget_eq_getElem a' hi, aget_eq_getElem a' hj] at this

/-- JS `Math.max(...array)`.  The fold seed `-1` stands in for the
`-Infinity` of an empty spread: the only use of the maximum is the count
table size `(max + 1).toNat`, which is 0 for the empty array under either
seed, and for a non-empty array of non-negative entries the seed is
dominated. -/
def listMax (a : List Int) : Int := a.foldl max (-1)

/-- Frequency phase of `countingSort`:
`for (let i = 0; i < array.length; i++) { count[array[i]]++ }`. -/
def buildCount (a : List Int) (count : List Int) : List Int :=
  a.foldl (fun c k => c.set k.toNat (aget c k.toNat + 1)) count

/-- Cumulative phase of `countingSort`:
`for (let i = 0; i < count.length - 1; i++) { count[i+1] += count[i] }`. -/
def cumLoop (count : List Int) (i : Nat) : List Int :=
  if i + 1 < count.length then
    cumLoop (count.set (i + 1) (aget count (i + 1) + aget count i)) (i + 1)
  else count
termination_by count.length - i
decreasing_by
  simp only [List.length_set]
  omega

/-- Placement phase of `countingSort`, iterating `i` from `array.length - 1`
down to 0: `key = array[i]; sortedPosition = --count[key];
aux[sortedPosition] = key`, pushing `{index: sortedPosition, newValue: key}`.
The first argument of the recursion is one past the index being processed. -/
def placeLoop (a : List Int) : Nat → List Int → List Int → List Int × List Int × List Move
  | 0, count, aux => (count, aux, [])
  | n + 1, count, aux =>
    ((placeLoop a n (count.set (aget a n).toNat (aget count (aget a n).toNat - 1))
        (aux.set (aget count (aget a n).toNat - 1).toNat (aget a n))).1,
      (placeLoop a n (count.set (aget a n).toNat (aget count (aget a n).toNat - 1))
        (aux.set (aget count (aget a n).toNat - 1).toNat (aget a n))).2.1,
      Move.setValueAtIndex (aget count (aget a n).toNat - 1).toNat (aget a n) ::
        (placeLoop a n (count.set (aget a n).toNat (aget count (aget a n).toNat - 1))
          (aux.set (aget count (aget a n).toNat - 1).toNat (aget a n))).2.2)

/-- Final copy of `countingSort`:
`for (let i = 0; i < aux.length; i++) { array[i] = aux[i] }`. -/
def copyBack (arr aux : List Int) (i : Nat) : List Int :=
  if i < aux.length then copyBack (arr.set i (aget aux i)) aux (i + 1) else arr
termination_by aux.length - i
decreasing_by
  omega

/-- Embedding of `countingSort(array)`: sized zero count table, frequency
counts, cumulative counts, zero-filled auxiliary array, backward placement
with move recording, and the unrecorded copy back into the main array. -/
def countingSort (a : List Int) : List Int × List Move :=
  (copyBack a
      (placeLoop a a.length
        (cumLoop (buildCount a (List.replicate (listMax a + 1).toNat 0)) 0)
        (List.replicate a.length 0)).2.1 0,
    (placeLoop a a.length
      (cumLoop (buildCount a (List.replicate (listMax a + 1).toNat 0)) 0)
      (List.replicate a.length 0)).2.2)

/-- Number of entries strictly below `v`. -/
def occLt (a : List Int) (v : Int) : Nat := a.countP (fun x => decide (x < v))

/-- Number of entries equal to `v`. -/
def occEq (a : List Int) (v : Int) : Nat := a.countP (fun x => decide (x = v))

/-- Number of entries at most `v`. -/
def occLe (a : List Int) (v : Int) : Nat := a.countP (fun x => decide (x ≤ v))

/-- Number of entries equal to `v` among the first `n`. -/
def occEqBefore (a : List Int) (n : Nat) (v : Int) : Nat :=
  (a.take n).countP (fun x => decide (x = v))

/-- The output position that the backward placement of counting sort assigns
to input index `i`: the number of strictly smaller entries plus the number of
equal entries at earlier input positions. -/
def slot (a : List Int) (i : Nat) : Nat :=
  occLt a (aget a i) + occEqBefore a i (aget a i)

theorem occLt_add_occEq (a : List Int) (v : Int) :
    occLt a v + occEq a v = occLe a v := by
  induction a with
  | nil => rfl
  | cons x t ih =>
    unfold occLt occEq occLe at *
    rw [List.countP_cons, List.countP_cons, List.countP_cons]
    simp only [decide_eq_true_eq]
    split_ifs <;> omega

theorem occLe_succ (a : List Int) (v : Int) :
    occLe a (v + 1) = occLe a v + occEq a (v + 1) := by
  induction a with
  | nil => rfl
  | cons x t ih =>
    unfold occLe occEq at *
    rw [List.countP_cons, List.countP_cons, List.countP_cons]
    simp only [decide_eq_true_eq]
    split_ifs <;> omega

theorem occLe_zero_of_nonneg {a : List Int} (h : ∀ x ∈ a, 0 ≤ x) :
    occLe a 0 = occEq a 0 := by
  unfold occLe occEq
  induction a with
  | nil => rfl
  | cons x t ih =>
    rw [List.countP_cons, List.countP_cons]
    rw [ih (fun y hy => h y (List.mem_cons_of_mem x hy))]
    have hx := h x (List.mem_cons_self x t)
    simp only [decide_eq_true_eq]
    split_ifs <;> omega

theorem occEqBefore_length (a : List Int) (v : Int) :
    occEqBefore a a.length v = occEq a v := by
  unfold occEqBefore occEq
  rw [List.take_length]

theorem occEqBefore_succ (a : List Int) {n : Nat} (h : n < a.length) (v : Int) :
    occEqBefore a (n + 1) v =
      occEqBefore a n v + (if aget a n = v then 1 else 0) := by
  unfold occEqBefore
  rw [List.take_succ, List.getElem?_eq_getElem h, List.countP_append]
  rw [aget_eq_getElem a h]
  simp only [Option.toList_some, List.countP_cons, List.countP_nil]
  by_cases hv : a[n] = v
  · simp [hv]
  · simp [hv]

theorem occEqBefore_mono (a : List Int) (v : Int) : ∀ {n m : Nat}, n ≤ m →
    occEqBefore a n v ≤ occEqBefore a m v := by
  intro n m hnm
  unfold occEqBefore
  have h1 : a.take n = (a.take m).take n := by
    rw [List.take_take, Nat.min_eq_left hnm]
  rw [h1]
  exact List.Sublist.countP_le _ (List.take_sublist n (a.take m))

theorem occEqBefore_le (a : List Int) (n : Nat) (v : Int) :
    occEqBefore a n v ≤ occEq a v := by
  unfold occEqBefore occEq
  exact List.Sublist.countP_le _ (List.take_sublist n a)

theorem occLe_le_length (a : List Int) (v : Int) : occLe a v ≤ a.length :=
  List.countP_le_length _

theorem occLe_le_occLt {a : List Int} {v w : Int} (h : v < w) :
    occLe a v ≤ occLt a w := by
  unfold occLe occLt
  refine List.countP_mono_left ?_
  intro x _ hx
  simp only [decide_eq_true_eq] at hx ⊢
  omega

theorem slot_lt_occLe {a : List Int} {i : Nat} (h : i < a.length) :
    slot a i < occLe a (aget a i) := by
  unfold slot
  have h1 := occEqBefore_succ a h (aget a i)
  rw [if_pos rfl] at h1
  have h2 := occEqBefore_le a (i + 1) (aget a i)
  have h3 := occLt_add_occEq a (aget a i)
  omega

theorem slot_lt {a : List Int} {i : Nat} (h : i < a.length) :
    slot a i < a.length :=
  lt_of_lt_of_le (slot_lt_occLe h) (occLe_le_length a _)

theorem slot_lt_slot_of_eq {a : List Int} {i j : Nat} (hij : i < j)
    (heq : aget a i = aget a j) (hi : i < a.length) :
    slot a i < slot a j := by
  unfold slot
  rw [heq]
  have h1 := occEqBefore_succ a hi (aget a j)
  rw [if_pos heq] at h1
  have h2 := occEqBefore_mono a (aget a j) (show i + 1 ≤ j by omega)
  omega

theorem slot_lt_slot_of_lt {a : List Int} {i j : Nat} (hi : i < a.length)
    (hv : aget a i < aget a j) : slot a i < slot a j := by
  have h1 := slot_lt_occLe hi
  have h2 := @occLe_le_occLt a _ _ hv
  have h3 : occLt a (aget a j) ≤ slot a j := by
    unfold slot
    omega
  omega

theorem slot_ne {a : List Int} {i j : Nat} (hij : i ≠ j) (hi : i < a.length)
    (hj : j < a.length) : slot a i ≠ slot a j := by
  rcases lt_trichotomy (aget a i) (aget a j) with hv | hv | hv
  · exact Nat.ne_of_lt (slot_lt_slot_of_lt hi hv)
  · rcases Nat.lt_or_ge i j with h | h
    · exact Nat.ne_of_lt (slot_lt_slot_of_eq h hv hi)
    · exact (Nat.ne_of_lt (slot_lt_slot_of_eq (by omega) hv.symm hj)).symm
  · exact (Nat.ne_of_lt (slot_lt_slot_of_lt hj hv)).symm

theorem le_foldl_max : ∀ (l : List Int) (b x : Int), x ∈ l → x ≤ l.foldl max b := by
  intro l
  induction l with
  | nil =>
    intro b x h
    simp at h
  | cons y t ih =>
    intro b x h
    have hinit : ∀ (c : Int), c ≤ t.foldl max c := by
      clear h ih
      induction t with
      | nil => intro c; exact le_refl c
      | cons z s ihs =>
        intro c
        exact le_trans (le_max_left c z) (ihs (max c z))
    rcases List.mem_cons.mp h with rfl | h'
    · exact le_trans (le_max_right b x) (hinit (max b x))
    · exact ih (max b y) x h'

theorem le_listMax {a : List Int} {x : Int} (h : x ∈ a) : x ≤ listMax a :=
  le_foldl_max a (-1) x h

theorem aget_replicate (m : Nat) (p : Nat) :
    aget (List.replicate m (0 : Int)) p = 0 := by
  rcases Nat.lt_or_ge p m with h | h
  · rw [aget_eq_getElem _ (by simpa using h)]
    exact List.getElem_replicate _ _
  · exact aget_out _ (by simpa using h)

theorem buildCount_spec : ∀ (l : List Int) (c : List Int),
    (∀ x ∈ l, 0 ≤ x ∧ x.toNat < c.length) →
    (buildCount l c).length = c.length ∧
    ∀ v : Nat, aget (buildCount l c) v =
      aget c v + (l.countP (fun x => decide (x = (v : Int))) : Int) := by
  intro l
  induction l with
  | nil =>
    intro c _
    refine ⟨rfl, fun v => ?_⟩
    simp [buildCount]
  | cons k t ih =>
    intro c h
    have hk := h k (List.mem_cons_self k t)
    have hstep : buildCount (k :: t) c =
        buildCount t (c.set k.toNat (aget c k.toNat + 1)) := rfl
    obtain ⟨ihlen, ihval⟩ := ih (c.set k.toNat (aget c k.toNat + 1))
      (fun x hx => ⟨(h x (List.mem_cons_of_mem k hx)).1, by
        have := (h x (List.mem_cons_of_mem k hx)).2
        simpa using this⟩)
    rw [hstep]
    refine ⟨by simpa using ihlen, ?_⟩
    intro v
    rw [ihval v, List.countP_cons]
    by_cases hv : k.toNat = v
    · rw [← hv, aget_set_self c hk.2]
      have hkv : k = ((k.toNat : Nat) : Int) := by omega
      rw [if_pos (by rw [decide_eq_true_eq]; omega)]
      push_cast
      ring
    · rw [aget_set_ne c hv]
      rw [if_neg (by rw [decide_eq_true_eq]; omega)]
      push_cast
      ring

/-- Partial sums of count entries as produced by the cumulative loop started
at `i`: below `i + 1` the entry itself, above it the running sum. -/
def sumFrom (c : List Int) (i : Nat) : Nat → Int
  | 0 => aget c 0
  | v + 1 => if v + 1 ≤ i then aget c (v + 1) else sumFrom c i v + aget c (v + 1)

theorem sumFrom_set {c : List Int} {i : Nat} (h : i + 1 < c.length) :
    ∀ v, sumFrom (c.set (i + 1) (aget c (i + 1) + aget c i)) (i + 1) v =
      sumFrom c i v := by
  intro v
  induction v with
  | zero =>
    rw [sumFrom, sumFrom]
    exact aget_set_ne c (by omega) _
  | succ v ihv =>
    rw [sumFrom, sumFrom]
    by_cases hv : v + 1 ≤ i
    · rw [if_pos (by omega), if_pos hv]
      exact aget_set_ne c (by omega) _
    · by_cases hv' : v + 1 = i + 1
      · rw [if_pos (by omega), if_neg (by omega), ← hv']
        rw [aget_set_self c (by omega)]
        have hvv : sumFrom c i v = aget c v := by
          cases v with
          | zero => rw [sumFrom]
          | succ w => rw [sumFrom, if_pos (by omega)]
        rw [hvv]
        have : v = i := by omega
        rw [this]
        ring
      · rw [if_neg (by omega), if_neg hv, ihv]
        rw [aget_set_ne c (by omega)]

theorem cumLoop_spec : ∀ (c : List Int) (i : Nat),
    (cumLoop c i).length = c.length ∧
    ∀ v, v < c.length → aget (cumLoop c i) v = sumFrom c i v := by
  intro c i
  induction c, i using cumLoop.induct with
  | case1 c i h ih =>
    obtain ⟨ihlen, ihval⟩ := ih
    rw [cumLoop, if_pos h]
    refine ⟨by simpa using ihlen, ?_⟩
    intro v hv
    rw [ihval v (by simpa using hv), sumFrom_set h v]
  | case2 c i h =>
    rw [cumLoop, if_neg h]
    refine ⟨rfl, ?_⟩
    intro v hv
    have hvi : v ≤ i := by omega
    cases v with
    | zero => rw [sumFrom]
    | succ w => rw [sumFrom, if_pos (by omega)]

theorem copyBack_spec : ∀ (arr aux : List Int) (i : Nat),
    (copyBack arr aux i).length = arr.length ∧
    ∀ p, aget (copyBack arr aux i) p =
      if i ≤ p ∧ p < aux.length ∧ p < arr.length then aget aux p
      else aget arr p := by
  intro arr aux i
  induction arr, aux, i using copyBack.induct with
  | case1 arr aux i h ih =>
    rw [copyBack, if_pos h]
    obtain ⟨ihlen, ihval⟩ := ih
    refine ⟨by simpa using ihlen, ?_⟩
    intro p
    rw [ihval p]
    simp only [List.length_set]
    split_ifs with h1 h2
    · rfl
    · exact absurd ⟨by omega, h1.2.1, h1.2.2⟩ h2
    · next h2 =>
      have hpi : p = i := by omega
      subst hpi
      exact aget_set_self arr h2.2.2 _
    · next h2 =>
      by_cases hpi : p = i
      · subst hpi
        have hlen : arr.length ≤ p := by omega
        rw [List.set_eq_of_length_le hlen]
      · exact aget_set_ne arr (Ne.symm hpi) _
  | case2 arr aux i h =>
    rw [copyBack, if_neg h]
    refine ⟨rfl, fun p => ?_⟩
    rw [if_neg (fun hc => h (by omega))]

theorem copyBack_eq {arr aux : List Int} (h : arr.length = aux.length) :
    copyBack arr aux 0 = aux := by
  obtain ⟨hlen, hval⟩ := copyBack_spec arr aux 0
  apply List.ext_getElem
  · omega
  · intro n h1 h2
    have := hval n
    rw [if_pos ⟨Nat.zero_le n, by omega, by omega⟩] at this
    rw [← aget_eq_getElem _ h1, ← aget_eq_getElem _ h2]
    exact this

theorem placeLoop_spec : ∀ (n : Nat) (a count aux : List Int),
    n ≤ a.length →
    aux.length = a.length →
    (∀ x ∈ a, 0 ≤ x ∧ x.toNat < count.length) →
    (∀ v : Nat, v < count.length →
      aget count v = (occLt a (v : Int) : Int) + (occEqBefore a n (v : Int) : Int)) →
    (placeLoop a n count aux).2.1.length = aux.length ∧
    (∀ p, (∀ i, i < n → slot a i ≠ p) →
      aget (placeLoop a n count aux).2.1 p = aget aux p) ∧
    (∀ i, i < n → aget (placeLoop a n count aux).2.1 (slot a i) = aget a i) ∧
    (placeLoop a n count aux).2.2 = ((List.range n).reverse).map
      (fun i => Move.setValueAtIndex (slot a i) (aget a i)) ∧
    replay aux (placeLoop a n count aux).2.2 = (placeLoop a n count aux).2.1 := by
  intro n
  induction n with
  | zero =>
    intro a count aux _ _ _ _
    exact ⟨rfl, fun p _ => rfl, fun i hi => absurd hi (by omega), rfl, rfl⟩
  | succ n ihn =>
    intro a count aux hn haux hkeys hcount
    have hna : n < a.length := by omega
    have hmem : aget a n ∈ a := by
      rw [aget_eq_getElem a hna]
      exact List.getElem_mem hna
    obtain ⟨hk0, hklt⟩ := hkeys (aget a n) hmem
    have hcast : ((aget a n).toNat : Int) = aget a n := by omega
    have hCk : aget count (aget a n).toNat =
        (occLt a (aget a n) : Int) + (occEqBefore a (n + 1) (aget a n) : Int) := by
      have := hcount (aget a n).toNat hklt
      rwa [hcast] at this
    have hEqB : occEqBefore a (n + 1) (aget a n) =
        occEqBefore a n (aget a n) + 1 := by
      rw [occEqBefore_succ a hna, if_pos rfl]
    have hpos : aget count (aget a n).toNat - 1 = ((slot a n : Nat) : Int) := by
      rw [hCk, hEqB]
      unfold slot
      push_cast
      ring
    have hposNat : (aget count (aget a n).toNat - 1).toNat = slot a n := by
      rw [hpos]
      exact Int.toNat_natCast _
    have hslotlen : slot a n < aux.length := by
      rw [haux]
      exact slot_lt hna
    have hHC' : ∀ v : Nat, v < (count.set (aget a n).toNat
        (aget count (aget a n).toNat - 1)).length →
        aget (count.set (aget a n).toNat (aget count (aget a n).toNat - 1)) v =
          (occLt a (v : Int) : Int) + (occEqBefore a n (v : Int) : Int) := by
      intro v hv
      simp only [List.length_set] at hv
      by_cases hveq : (aget a n).toNat = v
      · rw [← hveq, aget_set_self count hklt, hpos, hcast]
        unfold slot
        push_cast
        ring
      · rw [aget_set_ne count hveq]
        rw [hcount v hv]
        have hne : aget a n ≠ (v : Int) := by omega
        rw [occEqBefore_succ a hna, if_neg hne]
        simp
    obtain ⟨ih1, ih2, ih3, ih4, ih5⟩ := ihn a
      (count.set (aget a n).toNat (aget count (aget a n).toNat - 1))
      (aux.set (aget count (aget a n).toNat - 1).toNat (aget a n))
      (by omega) (by simp [haux])
      (fun x hx => ⟨(hkeys x hx).1, by simpa using (hkeys x hx).2⟩)
      hHC'
    refine ⟨?_, ?_, ?_, ?_, ?_⟩
    · show (placeLoop a n (count.set (aget a n).toNat
          (aget count (aget a n).toNat - 1))
          (aux.set (aget count (aget a n).toNat - 1).toNat (aget a n))).2.1.length
        = aux.length
      rw [ih1]
      simp
    · intro p hp
      show aget (placeLoop a n (count.set (aget a n).toNat
          (aget count (aget a n).toNat - 1))
          (aux.set (aget count (aget a n).toNat - 1).toNat (aget a n))).2.1 p
        = aget aux p
      rw [ih2 p (fun i hi => hp i (by omega)), hposNat]
      exact aget_set_ne aux (hp n (by omega)) _
    · intro i hi
      rcases Nat.lt_or_ge i n with hin | hin
      · exact ih3 i hin
      · have : i = n := by omega
        subst this
        show aget (placeLoop a i (count.set (aget a i).toNat
            (aget count (aget a i).toNat - 1))
            (aux.set (aget count (aget a i).toNat - 1).toNat (aget a i))).2.1
            (slot a i) = aget a i
        rw [ih2 (slot a i) (fun j hj => slot_ne (by omega) (by omega) hna),
          hposNat]
        exact aget_set_self aux hslotlen _
    · show Move.setValueAtIndex (aget count (aget a n).toNat - 1).toNat (aget a n) ::
          (placeLoop a n (count.set (aget a n).toNat
            (aget count (aget a n).toNat - 1))
            (aux.set (aget count (aget a n).toNat - 1).toNat (aget a n))).2.2
        = ((List.range (n + 1)).reverse).map
          (fun i => Move.setValueAtIndex (slot a i) (aget a i))
      rw [ih4, hposNat, List.range_succ, List.reverse_append]
      simp
    · show replay aux (Move.setValueAtIndex
          (aget count (aget a n).toNat - 1).toNat (aget a n) ::
          (placeLoop a n (count.set (aget a n).toNat
            (aget count (aget a n).toNat - 1))
            (aux.set (aget count (aget a n).toNat - 1).toNat (aget a n))).2.2)
        = (placeLoop a n (count.set (aget a n).toNat
            (aget count (aget a n).toNat - 1))
            (aux.set (aget count (aget a n).toNat - 1).toNat (aget a n))).2.1
      rw [replay_cons]
      exact ih5

theorem slots_nodup (a : List Int) :
    ((List.range a.length).map (slot a)).Nodup := by
  refine List.Nodup.map_on ?_ (List.nodup_range _)
  intro i hi j hj hij
  by_contra hne
  exact slot_ne hne (List.mem_range.mp hi) (List.mem_range.mp hj) hij

theorem slots_perm (a : List Int) :
    ((List.range a.length).map (slot a)).Perm (List.range a.length) := by
  have hsub : ((List.range a.length).map (slot a)) ⊆ List.range a.length := by
    intro p hp
    obtain ⟨i, hi, rfl⟩ := List.mem_map.mp hp
    exact List.mem_range.mpr (slot_lt (List.mem_range.mp hi))
  obtain ⟨l', hp, hs⟩ := List.subperm_of_subset (slots_nodup a) hsub
  have hl' : l' = List.range a.length := by
    refine hs.eq_of_length ?_
    rw [hp.length_eq]
    simp
  rw [hl'] at hp
  exact hp.symm

theorem slot_surj (a : List Int) {p : Nat} (hp : p < a.length) :
    ∃ i, i < a.length ∧ slot a i = p := by
  have hmem : p ∈ (List.range a.length).map (slot a) :=
    (slots_perm a).mem_iff.mpr (List.mem_range.mpr hp)
  obtain ⟨i, hi, hieq⟩ := List.mem_map.mp hmem
  exact ⟨i, List.mem_range.mp hi, hieq⟩

theorem applyMove_length (x : List Int) (m : Move) :
    (applyMove x m).length = x.length := by
  cases m <;> simp [applyMove]

theorem replay_length (ms : List Move) : ∀ x, (replay x ms).length = x.length := by
  induction ms with
  | nil => intro x; rfl
  | cons m t ih =>
    intro x
    rw [replay_cons, ih, applyMove_length]

theorem replay_sets_agree : ∀ (ms : List Move) (x y : List Int),
    x.length = y.length →
    (∀ m ∈ ms, ∃ i v, m = Move.setValueAtIndex i v ∧ i < x.length) →
    ∀ p, (aget x p = aget y p ∨ ∃ i v, Move.setValueAtIndex i v ∈ ms ∧ i = p) →
    aget (replay x ms) p = aget (replay y ms) p := by
  intro ms
  induction ms with
  | nil =>
    intro x y _ _ p hp
    rcases hp with h | ⟨i, v, hm, _⟩
    · exact h
    · simp at hm
  | cons m t ih =>
    intro x y hlen hall p hp
    obtain ⟨i, v, rfl, hilt⟩ := hall m (List.mem_cons_self m t)
    rw [replay_cons, replay_cons]
    show aget (replay (x.set i v) t) p = aget (replay (y.set i v) t) p
    refine ih (x.set i v) (y.set i v) (by simp [hlen])
      (fun m' hm' => by
        obtain ⟨i', v', he, hl⟩ := hall m' (List.mem_cons_of_mem _ hm')
        exact ⟨i', v', he, by simpa using hl⟩) p ?_
    by_cases hpi : p = i
    · subst hpi
      left
      rw [aget_set_self x hilt, aget_set_self y (by omega)]
    · rcases hp with h | ⟨i', v', hm, hip⟩
      · left
        rw [aget_set_ne x (Ne.symm hpi), aget_set_ne y (Ne.symm hpi)]
        exact h
      · rcases List.mem_cons.mp hm with heq | hmt
        · exfalso
          have := (Move.setValueAtIndex.inj heq).1
          omega
        · right
          exact ⟨i', v', hmt, hip⟩

theorem self_eq_range_map (l : List Int) :
    l = (List.range l.length).map (fun i => aget l i) := by
  apply List.ext_getElem
  · simp
  · intro n h1 h2
    rw [List.getElem_map, List.getElem_range]
    exact (aget_eq_getElem l h1).symm

theorem countingSort_facts (a : List Int) (hnn : ∀ x ∈ a, 0 ≤ x) :
    (countingSort a).1.length = a.length ∧
    (∀ i, i < a.length → aget (countingSort a).1 (slot a i) = aget a i) ∧
    (countingSort a).2 = ((List.range a.length).reverse).map
      (fun i => Move.setValueAtIndex (slot a i) (aget a i)) ∧
    (countingSort a).1 = List.insertionSort (· ≤ ·) a ∧
    replay a (countingSort a).2 = (countingSort a).1 := by
  have hkeys : ∀ x ∈ a, 0 ≤ x ∧
      x.toNat < (List.replicate (listMax a + 1).toNat (0 : Int)).length := by
    intro x hx
    refine ⟨hnn x hx, ?_⟩
    have h1 := le_listMax hx
    have h2 := hnn x hx
    simp only [List.length_replicate]
    omega
  obtain ⟨hc1len, hc1val⟩ := buildCount_spec a
    (List.replicate (listMax a + 1).toNat 0) hkeys
  set c1 := buildCount a (List.replicate (listMax a + 1).toNat 0) with hc1
  obtain ⟨hc2len, hc2val⟩ := cumLoop_spec c1 0
  set c2 := cumLoop c1 0 with hc2
  have hc1occ : ∀ v : Nat, aget c1 v = (occEq a (v : Int) : Nat) := by
    intro v
    rw [hc1val v, aget_replicate]
    simp [occEq]
  have hsum : ∀ v : Nat, v < c1.length → sumFrom c1 0 v = (occLe a (v : Int) : Nat) := by
    intro v
    induction v with
    | zero =>
      intro _
      rw [sumFrom, hc1occ 0]
      simp only [Nat.cast_zero]
      rw [occLe_zero_of_nonneg hnn]
    | succ w ihw =>
      intro hw
      rw [sumFrom, if_neg (by omega), ihw (by omega), hc1occ (w + 1)]
      have hle := occLe_succ a (w : Int)
      push_cast
      push_cast at hle
      rw [show ((w : Int) + 1) = (((w + 1 : Nat) : Int)) by push_cast; ring] at hle
      push_cast at hle
      omega
  have hHC : ∀ v : Nat, v < c2.length →
      aget c2 v = (occLt a (v : Int) : Nat) + (occEqBefore a a.length (v : Int) : Nat) := by
    intro v hv
    rw [hc2val v (by omega), hsum v (by omega)]
    rw [occEqBefore_length a]
    have := occLt_add_occEq a (v : Int)
    push_cast
    omega
  obtain ⟨p1, p2, p3, p4, p5⟩ := placeLoop_spec a.length a c2
    (List.replicate a.length 0) (le_refl _) (by simp)
    (fun x hx => ⟨hnn x hx, by
      have := (hkeys x hx).2
      omega⟩)
    (by
      intro v hv
      rw [hHC v hv])
  set auxf := (placeLoop a a.length c2 (List.replicate a.length 0)).2.1 with hauxf
  have hauxflen : auxf.length = a.length := by
    rw [p1]
    simp
  have hresult : (countingSort a).1 = auxf := by
    show copyBack a auxf 0 = auxf
    exact copyBack_eq (by omega)
  have hmoves : (countingSort a).2 = ((List.range a.length).reverse).map
      (fun i => Move.setValueAtIndex (slot a i) (aget a i)) := p4
  have hwrit : ∀ i, i < a.length → aget (countingSort a).1 (slot a i) = aget a i := by
    intro i hi
    rw [hresult]
    exact p3 i hi
  have hsorted : (countingSort a).1.Sorted (· ≤ ·) := by
    rw [List.Sorted, List.pairwise_iff_getElem]
    intro p q hp hq hpq
    have hlen : (countingSort a).1.length = a.length := by
      rw [hresult]
      exact hauxflen
    obtain ⟨i, hi, hieq⟩ := @slot_surj a p (by omega)
    obtain ⟨j, hj, hjeq⟩ := @slot_surj a q (by omega)
    rw [← aget_eq_getElem _ hp, ← aget_eq_getElem _ hq, ← hieq, ← hjeq,
      hwrit i hi, hwrit j hj]
    by_contra hcon
    have hlt : aget a j < aget a i := by omega
    have := slot_lt_slot_of_lt hj hlt
    omega
  have hperm : (countingSort a).1.Perm a := by
    have e1 : a = (List.range a.length).map (fun i => aget a i) := self_eq_range_map a
    have e2 : (List.range a.length).map (fun i => aget a i)
        = (List.range a.length).map (fun i => aget (countingSort a).1 (slot a i)) := by
      refine List.map_congr_left ?_
      intro i hi
      rw [hwrit i (List.mem_range.mp hi)]
    have e3 : (List.range a.length).map (fun i => aget (countingSort a).1 (slot a i))
        = ((List.range a.length).map (slot a)).map (fun p => aget (countingSort a).1 p) := by
      rw [List.map_map]
      rfl
    have e4 : (((List.range a.length).map (slot a)).map
        (fun p => aget (countingSort a).1 p)).Perm
        ((List.range a.length).map (fun p => aget (countingSort a).1 p)) :=
      (slots_perm a).map _
    have e5 : (List.range a.length).map (fun p => aget (countingSort a).1 p)
        = (countingSort a).1 := by
      have hlen : (countingSort a).1.length = a.length := by
        rw [hresult]
        exact hauxflen
      conv_rhs => rw [self_eq_range_map (countingSort a).1]
      rw [hlen]
    have h7 : a = ((List.range a.length).map (slot a)).map
        (fun p => aget (countingSort a).1 p) := (e1.trans e2).trans e3
    have h8 := e4
    rw [e5] at h8
    rw [← h7] at h8
    exact h8.symm
  have hreplay : replay a (countingSort a).2 = (countingSort a).1 := by
    have hxy : ∀ p, aget (replay a (countingSort a).2) p
        = aget (replay (List.replicate a.length 0) (countingSort a).2) p := by
      intro p
      refine replay_sets_agree (countingSort a).2 a (List.replicate a.length 0)
        (by simp) ?_ p ?_
      · intro m hm
        rw [hmoves] at hm
        obtain ⟨i, hi, rfl⟩ := List.mem_map.mp hm
        rw [List.mem_reverse, List.mem_range] at hi
        exact ⟨slot a i, aget a i, rfl, slot_lt hi⟩
      · rcases Nat.lt_or_ge p a.length with hp | hp
        · right
          obtain ⟨i, hi, hieq⟩ := @slot_surj a p hp
          refine ⟨slot a i, aget a i, ?_, hieq⟩
          rw [hmoves]
          refine List.mem_map.mpr ⟨i, ?_, rfl⟩
          rw [List.mem_reverse, List.mem_range]
          exact hi
        · left
          rw [aget_out a hp, aget_replicate]
    have hrepaux : replay (List.replicate a.length 0) (countingSort a).2 = auxf := p5
    apply List.ext_getElem
    · rw [replay_length, hresult, hauxflen]
    · intro m h1 h2
      rw [← aget_eq_getElem _ h1, ← aget_eq_getElem _ h2]
      rw [hxy m, hrepaux, hresult]
  exact ⟨by rw [hresult]; exact hauxflen, hwrit, hmoves,
    eq_insertionSort_of_sorted_perm hperm hsorted, hreplay⟩

/-! ## The dispatch of `onOptionClicked` -/

/-- The `option` string of the Bubble Sort branch of `onOptionClicked`. -/
def bubbleOption : String := "Bubble Sort"

/-- The `option` string of the Merge Sort branch of `onOptionClicked`. -/
def mergeOption : String := "Merge Sort"

/-- The `option` string of the Counting Sort branch of `onOptionClicked`. -/
def countingOption : String := "Counting Sort"

/-- The `option` string of the Quick Sort branch of `onOptionClicked`. -/
def quickOption : String := "Quick Sort"

/-- The sorting dispatch of `onOptionClicked`: run the sort selected by
`option` on the working array, returning the final array and the move log in
emission order.  (The component reverses the log into a stack whose animation
timers pop from the end, so the animation replays the moves in emission
order.)  Quick sort is embedded with explicit recursion fuel, hence the
`Option` result; the fuel used here is proved sufficient above. -/
def runSort (option : String) (a : List Int) : Option (List Int × List Move) :=
  if option = bubbleOption then some (bubbleSort a)
  else if option = mergeOption then some (mergeSortTop a)
  else if option = countingOption then some (countingSort a)
  else if option = quickOption then quickSortTop a
  else none

theorem runSort_bubble (a : List Int) :
    runSort bubbleOption a = some (bubbleSort a) := by
  unfold runSort
  rw [if_pos (rfl : bubbleOption = bubbleOption)]

theorem runSort_merge (a : List Int) :
    runSort mergeOption a = some (mergeSortTop a) := by
  unfold runSort
  rw [if_neg (show ¬ mergeOption = bubbleOption by decide),
    if_pos (rfl : mergeOption = mergeOption)]

theorem runSort_counting (a : List Int) :
    runSort countingOption a = some (countingSort a) := by
  unfold runSort
  rw [if_neg (show ¬ countingOption = bubbleOption by decide),
    if_neg (show ¬ countingOption = mergeOption by decide),
    if_pos (rfl : countingOption = countingOption)]

theorem runSort_quick (a : List Int) :
    runSort quickOption a = quickSortTop a := by
  unfold runSort
  rw [if_neg (show ¬ quickOption = bubbleOption by decide),
    if_neg (show ¬ quickOption = mergeOption by decide),
    if_neg (show ¬ quickOption = countingOption by decide),
    if_pos (rfl : quickOption = quickOption)]

/-! ## The validator (`validateArray`) -/

/-- A bin of the display state: `binDimensions[i]` with its `value` and
`color` fields (the `width` and `height` fields are styling only and are
never read by the validator). -/
structure BinDim where
  value : Int
  color : String
deriving DecidableEq

/-- One entry of `validationAnimations`: `{index: i, originalColor:
binDimensions[i].color}`. -/
structure ValidationRecord where
  index : Nat
  originalColor : String
deriving DecidableEq

/-- The loop of `validateArray`: for `i` from 0 while `i < sorted.length`,
push `{index: i, originalColor: binDimensions[i].color}` when
`binDimensions[i].value === sorted[i]`, and break at the first mismatch. -/
def validateLoop (bins : List BinDim) (sorted : List Int) (i : Nat) :
    List ValidationRecord :=
  if i < sorted.length then
    if (bins.getD i ⟨0, ""⟩).value = aget sorted i then
      ⟨i, (bins.getD i ⟨0, ""⟩).color⟩ :: validateLoop bins sorted (i + 1)
    else []
  else []
termination_by sorted.length - i

/-- Embedding of `validateArray()`: sort the retained pre-sort copy
ascending (`.sort((a, b) => a - b)` on numbers) and compare the display
values against it from index 0, recording a validation record per match
until the first mismatch. -/
def validateArray (bins : List BinDim) (unsorted : List Int) :
    List ValidationRecord :=
  validateLoop bins (List.insertionSort (· ≤ ·) unsorted) 0

theorem validateLoop_stop {bins : List BinDim} {sorted : List Int} {i : Nat}
    (h : ¬ i < sorted.length) : validateLoop bins sorted i = [] := by
  rw [validateLoop, if_neg h]

theorem validateLoop_match {bins : List BinDim} {sorted : List Int} {i : Nat}
    (h : i < sorted.length)
    (hv : (bins.getD i ⟨0, ""⟩).value = aget sorted i) :
    validateLoop bins sorted i =
      ⟨i, (bins.getD i ⟨0, ""⟩).color⟩ :: validateLoop bins sorted (i + 1) := by
  rw [validateLoop, if_pos h, if_pos hv]

theorem validateLoop_mismatch {bins : List BinDim} {sorted : List Int} {i : Nat}
    (h : i < sorted.length)
    (hv : ¬ (bins.getD i ⟨0, ""⟩).value = aget sorted i) :
    validateLoop bins sorted i = [] := by
  rw [validateLoop, if_pos h, if_neg hv]

/-- The loop of `validateArray` records exactly the indices `[i, m)`, in
increasing order, when the display matches the reference on `[i, m)` and `m`
is the length or a mismatch position. -/
theorem validateLoop_spec : ∀ (n : Nat) (bins : List BinDim)
    (sorted : List Int) (i m : Nat),
    sorted.length - i ≤ n → i ≤ m → m ≤ sorted.length →
    (∀ j, i ≤ j → j < m → (bins.getD j ⟨0, ""⟩).value = aget sorted j) →
    (m = sorted.length ∨ ¬ (bins.getD m ⟨0, ""⟩).value = aget sorted m) →
    validateLoop bins sorted i = (List.range' i (m - i)).map
      (fun j => ⟨j, (bins.getD j ⟨0, ""⟩).color⟩) := by
  intro n
  induction n with
  | zero =>
    intro bins sorted i m hfuel h1 h2 hmatch hcut
    have him : i = m := by omega
    subst him
    rw [validateLoop_stop (by omega), (by omega : i - i = 0)]
    rfl
  | succ n ih =>
    intro bins sorted i m hfuel h1 h2 hmatch hcut
    rcases Nat.lt_or_ge i sorted.length with hlt | hge
    · rcases Nat.eq_or_lt_of_le h1 with heq | hlt2
      · subst heq
        rcases hcut with hc | hc
        · omega
        · rw [validateLoop_mismatch hlt hc, (by omega : i - i = 0)]
          rfl
      · rw [validateLoop_match hlt (hmatch i (le_refl i) hlt2)]
        rw [ih bins sorted (i + 1) m (by omega) (by omega) h2
          (fun j hj1 hj2 => hmatch j (by omega) hj2) hcut]
        rw [(by omega : m - i = (m - (i + 1)) + 1), List.range'_succ]
        rfl
    · have him : i = m := by omega
      subst him
      rw [validateLoop_stop (by omega), (by omega : i - i = 0)]
      rfl

/-! ## The counter handlers of `AppComponent.ngOnInit` -/

/-- The two counter fields of `AppComponent` that the counter subscriptions
update. -/
structure AppCounters where
  arrayAccessCount : Int
  comparisonCount : Int
deriving DecidableEq

/-- Embedding of the `updateArrayAccessCountSubj` subscription handler of
`ngOnInit`: `(newCount) => { this.arrayAccessCount = newCount; }`. -/
def onArrayAccessCountUpdate (s : AppCounters) (newCount : Int) : AppCounters :=
  AppCounters.mk newCount s.comparisonCount

/-- Embedding of the `updateComparisonCountSubj` subscription handler of
`ngOnInit`: `(newCount) => { this.comparisonCount = this.comparisonCount; }`
— the right-hand side of the assignment reads the field itself, not the
emitted `newCount`. -/
def onComparisonCountUpdate (s : AppCounters) (newCount : Int) : AppCounters :=
  AppCounters.mk s.arrayAccessCount s.comparisonCount

/-! ## Move targets -/

/-- The index a move writes first: for `setValueAtIndex` the one index it
writes at all. -/
def mvIndex : Move → Nat
  | Move.swapByIndex lo _ => lo
  | Move.setValueAtIndex p _ => p
  | Move.swapElement i1 _ => i1
  | Move.swapPivot p _ => p

/-! ## The claims -/

/-- C1: for each of the four algorithms dispatched by `onOptionClicked`,
replaying the recorded move log in emission order against the pre-sort array
reproduces the ascending reference sort, which is also the algorithm's own
final array (counting sort under the data model's non-negative values). -/
theorem C1_replay_reproduces_reference_sort (a : List Int) :
    (∃ r, runSort bubbleOption a = some r ∧
      r.1 = List.insertionSort (· ≤ ·) a ∧
      replay a r.2 = List.insertionSort (· ≤ ·) a) ∧
    (∃ r, runSort mergeOption a = some r ∧
      r.1 = List.insertionSort (· ≤ ·) a ∧
      replay a r.2 = List.insertionSort (· ≤ ·) a) ∧
    ((∀ x ∈ a, 0 ≤ x) → ∃ r, runSort countingOption a = some r ∧
      r.1 = List.insertionSort (· ≤ ·) a ∧
      replay a r.2 = List.insertionSort (· ≤ ·) a) ∧
    (∃ r, runSort quickOption a = some r ∧
      r.1 = List.insertionSort (· ≤ ·) a ∧
      replay a r.2 = List.insertionSort (· ≤ ·) a) := by
  refine ⟨⟨bubbleSort a, runSort_bubble a, (bubbleSort_correct a).1, ?_⟩,
    ⟨mergeSortTop a, runSort_merge a, (mergeSortTop_correct a).1, ?_⟩, ?_, ?_⟩
  · rw [(bubbleSort_correct a).2, (bubbleSort_correct a).1]
  · rw [(mergeSortTop_correct a).2, (mergeSortTop_correct a).1]
  · intro hnn
    obtain ⟨_, _, _, hout, hrep⟩ := countingSort_facts a hnn
    exact ⟨countingSort a, runSort_counting a, hout, by rw [hrep, hout]⟩
  · obtain ⟨a', ms, hEq, hIns, hRep⟩ := quickSortTop_correct a
    exact ⟨(a', ms), by rw [runSort_quick]; exact hEq, hIns, hRep.trans hIns⟩

/-- Witness for C1 at the array `[2, 2, 0, 1]`, discharging the
non-negativity hypothesis of the counting-sort branch. -/
theorem C1_replay_witness :
    (∀ x ∈ ([2, 2, 0, 1] : List Int), 0 ≤ x) ∧
    (∃ r, runSort countingOption [2, 2, 0, 1] = some r ∧
      r.1 = List.insertionSort (· ≤ ·) [2, 2, 0, 1] ∧
      replay [2, 2, 0, 1] r.2 = List.insertionSort (· ≤ ·) [2, 2, 0, 1]) :=
  ⟨by decide, (C1_replay_reproduces_reference_sort [2, 2, 0, 1]).2.2.1 (by decide)⟩

/-- C2: after `partition(array, lo, hi)` returns index `p`, every element at
an index in `[lo, p-1]` is at most the element at `p`, every element at an
index in `[p+1, hi]` is at least the element at `p`, and the array is a
permutation of the array before the call. -/
theorem C2_partition_postcondition (a : List Int) (lo hi : Nat)
    (h1 : lo ≤ hi) (h2 : hi < a.length) :
    ∃ a' ms p, partition a lo hi = some (a', ms, p) ∧
      lo ≤ p ∧ p ≤ hi ∧
      (∀ m, lo ≤ m → m < p → aget a' m ≤ aget a' p) ∧
      (∀ m, p < m → m ≤ hi → aget a' p ≤ aget a' m) ∧
      a'.Perm a := by
  obtain ⟨a', ms, p, hEq, _, hPlo, hPhi, hPivAt, hLow, hHigh, _, _, hPerm, _⟩ :=
    @partition_spec a lo hi h1 h2
  refine ⟨a', ms, p, hEq, hPlo, hPhi, ?_, ?_, hPerm⟩
  · intro m hm1 hm2
    rw [hPivAt]
    exact hLow m hm1 hm2
  · intro m hm1 hm2
    rw [hPivAt]
    exact le_of_lt (hHigh m hm1 hm2)

/-- Witness for C2 at the array `[3, 1, 2]` with `lo = 0`, `hi = 2`. -/
theorem C2_partition_witness :
    ((0 : Nat) ≤ 2 ∧ 2 < ([3, 1, 2] : List Int).length) ∧
    (∃ a' ms p, partition [3, 1, 2] 0 2 = some (a', ms, p) ∧
      0 ≤ p ∧ p ≤ 2 ∧
      (∀ m, 0 ≤ m → m < p → aget a' m ≤ aget a' p) ∧
      (∀ m, p < m → m ≤ 2 → aget a' p ≤ aget a' m) ∧
      a'.Perm [3, 1, 2]) :=
  ⟨⟨by decide, by decide⟩,
    C2_partition_postcondition [3, 1, 2] 0 2 (by decide) (by decide)⟩

/-- C3: for every in-bounds `lo ≤ hi`, `partition` terminates (its
`while (true)` loop runs within the proved fuel) and returns an index `p`
with `lo ≤ p ≤ hi`, and `quickSort` terminates: recursion fuel one more than
the range size suffices, because each recursive call operates on a strictly
smaller range; in particular the top-level call returns. -/
theorem C3_partition_quickSort_terminate (a : List Int) (lo hi : Nat)
    (h1 : lo ≤ hi) (h2 : hi < a.length) :
    (∃ a' ms p, partition a lo hi = some (a', ms, p) ∧ lo ≤ p ∧ p ≤ hi) ∧
    (∃ r, quickSort (hi + 1 - lo + 1) a lo hi = some r) ∧
    (∃ r, quickSortTop a = some r) := by
  refine ⟨?_, ?_, ?_⟩
  · obtain ⟨a', ms, p, hEq, _, hPlo, hPhi, _⟩ := @partition_spec a lo hi h1 h2
    exact ⟨a', ms, p, hEq, hPlo, hPhi⟩
  · obtain ⟨a', ms, hEq, _⟩ := quickSort_spec (hi + 1 - lo + 1) a lo hi h2 (by omega)
    exact ⟨(a', ms), hEq⟩
  · obtain ⟨a', ms, hEq, _⟩ := quickSortTop_correct a
    exact ⟨(a', ms), hEq⟩

/-- Witness for C3 at the already-sorted array `[1, 2, 2]` with repeated
elements, `lo = 0`, `hi = 2`. -/
theorem C3_termination_witness :
    ((0 : Nat) ≤ 2 ∧ 2 < ([1, 2, 2] : List Int).length) ∧
    ((∃ a' ms p, partition [1, 2, 2] 0 2 = some (a', ms, p) ∧ 0 ≤ p ∧ p ≤ 2) ∧
      (∃ r, quickSort (2 + 1 - 0 + 1) [1, 2, 2] 0 2 = some r) ∧
      (∃ r, quickSortTop [1, 2, 2] = some r)) :=
  ⟨⟨by decide, by decide⟩,
    C3_partition_quickSort_terminate [1, 2, 2] 0 2 (by decide) (by decide)⟩

/-- C4: when `a[lo..mid]` and `a[mid+1..hi]` are each sorted ascending,
`merge` leaves `a[lo..hi]` sorted ascending, equal to the tie-favours-left
merge of the two runs, and records exactly one `setValueAtIndex` move for
every index from `lo` to `hi` in increasing order, carrying the value
written there (including the copy-through writes after one run is
exhausted). -/
theorem C4_merge_sorted_stable_moves (a : List Int) (aux : Nat → Int)
    (lo mid hi : Nat) (h1 : lo ≤ mid) (h2 : mid < hi) (h3 : hi < a.length)
    (hs1 : (seg a lo mid).Sorted (· ≤ ·))
    (hs2 : (seg a (mid + 1) hi).Sorted (· ≤ ·)) :
    (seg (merge a aux lo mid hi).1 lo hi).Sorted (· ≤ ·) ∧
    seg (merge a aux lo mid hi).1 lo hi
      = specMergeTieLeft (seg a lo mid) (seg a (mid + 1) hi) ∧
    (merge a aux lo mid hi).2.2 = (List.range' lo (hi + 1 - lo)).map
      (fun p => Move.setValueAtIndex p (aget (merge a aux lo mid hi).1 p)) := by
  obtain ⟨_, _, s3, s4, _⟩ := merge_spec a aux h1 (by omega) h3
  refine ⟨?_, ?_, s4⟩
  · rw [s3]
    exact mergeLists_sorted _ _ hs1 hs2
  · rw [s3, mergeLists_eq_spec]

/-- Witness for C4 at the array `[1, 3, 2, 4]` with sorted halves
`[1, 3]` and `[2, 4]`. -/
theorem C4_merge_witness :
    ((0 : Nat) ≤ 1 ∧ 1 < 3 ∧ 3 < ([1, 3, 2, 4] : List Int).length ∧
      (seg [1, 3, 2, 4] 0 1).Sorted (· ≤ ·) ∧
      (seg [1, 3, 2, 4] (1 + 1) 3).Sorted (· ≤ ·)) ∧
    ((seg (merge [1, 3, 2, 4] (fun _ => 0) 0 1 3).1 0 3).Sorted (· ≤ ·) ∧
      seg (merge [1, 3, 2, 4] (fun _ => 0) 0 1 3).1 0 3
        = specMergeTieLeft (seg [1, 3, 2, 4] 0 1) (seg [1, 3, 2, 4] (1 + 1) 3) ∧
      (merge [1, 3, 2, 4] (fun _ => 0) 0 1 3).2.2 = (List.range' 0 (3 + 1 - 0)).map
        (fun p => Move.setValueAtIndex p
          (aget (merge [1, 3, 2, 4] (fun _ => 0) 0 1 3).1 p))) :=
  ⟨⟨by decide, by decide, by decide, by decide, by decide⟩,
    C4_merge_sorted_stable_moves [1, 3, 2, 4] (fun _ => 0) 0 1 3
      (by decide) (by decide) (by decide) (by decide) (by decide)⟩

/-- C5: counting sort is stable on non-negative inputs.  The backward
placement assigns input index `i` the output slot `slot a i`; for `i < j`
holding equal values the earlier input lands at the strictly smaller output
slot, both slots hold those values in the output, and the move log writes
exactly these slots. -/
theorem C5_countingSort_stable (a : List Int) (i j : Nat)
    (hnn : ∀ x ∈ a, 0 ≤ x) (hij : i < j) (hj : j < a.length)
    (hval : aget a i = aget a j) :
    slot a i < slot a j ∧
    aget (countingSort a).1 (slot a i) = aget a i ∧
    aget (countingSort a).1 (slot a j) = aget a j ∧
    (countingSort a).2 = ((List.range a.length).reverse).map
      (fun k => Move.setValueAtIndex (slot a k) (aget a k)) := by
  obtain ⟨_, hwrit, hmoves, _, _⟩ := countingSort_facts a hnn
  exact ⟨slot_lt_slot_of_eq hij hval (by omega), hwrit i (by omega),
    hwrit j hj, hmoves⟩

/-- Witness for C5 at the array `[2, 2, 1]` with the equal pair at input
indices 0 and 1. -/
theorem C5_stability_witness :
    ((∀ x ∈ ([2, 2, 1] : List Int), 0 ≤ x) ∧ 0 < 1 ∧
      1 < ([2, 2, 1] : List Int).length ∧
      aget [2, 2, 1] 0 = aget [2, 2, 1] 1) ∧
    (slot [2, 2, 1] 0 < slot [2, 2, 1] 1 ∧
      aget (countingSort [2, 2, 1]).1 (slot [2, 2, 1] 0) = aget [2, 2, 1] 0 ∧
      aget (countingSort [2, 2, 1]).1 (slot [2, 2, 1] 1) = aget [2, 2, 1] 1 ∧
      (countingSort [2, 2, 1]).2
        = ((List.range ([2, 2, 1] : List Int).length).reverse).map
          (fun k => Move.setValueAtIndex (slot [2, 2, 1] k) (aget [2, 2, 1] k))) :=
  ⟨⟨by decide, by decide, by decide, by decide⟩,
    C5_countingSort_stable [2, 2, 1] 0 1 (by decide) (by decide) (by decide)
      (by decide)⟩

/-- C6 (amended): on arrays of length 0 or 1 (over the data model's
non-negative values) bubble, merge and quick sort leave the array unchanged
and record no moves; counting sort leaves the array unchanged but records
one (self-write) move per element — so its log is empty for length 0 and has
exactly one entry for length 1, not zero as originally claimed. -/
theorem C6_degenerate_inputs (a : List Int) (hlen : a.length ≤ 1)
    (hnn : ∀ x ∈ a, 0 ≤ x) :
    (bubbleSort a).1 = a ∧ (bubbleSort a).2 = [] ∧
    (mergeSortTop a).1 = a ∧ (mergeSortTop a).2 = [] ∧
    quickSortTop a = some (a, []) ∧
    (countingSort a).1 = a ∧ (countingSort a).2.length = a.length := by
  have hb : bubbleSort a = (a, []) := by
    unfold bubbleSort
    rw [(by omega : a.length - 1 = 0)]
    rfl
  have hm : mergeSort a (fun _ => (0 : Int)) 0 (a.length - 1)
      = (a, fun _ => (0 : Int), []) := mergeSort_stop (by omega)
  have hq : quickSortTop a = some (a, []) := by
    unfold quickSortTop
    exact quickSort_stop (by omega)
  have hins : List.insertionSort (· ≤ ·) a = a := by
    cases a with
    | nil => rfl
    | cons x t =>
      cases t with
      | nil => rfl
      | cons y t2 =>
        simp only [List.length_cons] at hlen
        omega
  obtain ⟨_, _, hmoves, hout, _⟩ := countingSort_facts a hnn
  refine ⟨by rw [hb], by rw [hb], ?_, ?_, hq, by rw [hout, hins], ?_⟩
  · unfold mergeSortTop
    rw [hm]
  · unfold mergeSortTop
    rw [hm]
  · rw [hmoves]
    simp

/-- Witness for the amended C6 at the one-element array `[7]`. -/
theorem C6_degenerate_witness :
    (([7] : List Int).length ≤ 1 ∧ (∀ x ∈ ([7] : List Int), 0 ≤ x)) ∧
    ((bubbleSort [7]).1 = [7] ∧ (bubbleSort [7]).2 = [] ∧
      (mergeSortTop [7]).1 = [7] ∧ (mergeSortTop [7]).2 = [] ∧
      quickSortTop [7] = some ([7], []) ∧
      (countingSort [7]).1 = [7] ∧
      (countingSort [7]).2.length = ([7] : List Int).length) :=
  ⟨⟨by decide, by decide⟩, C6_degenerate_inputs [7] (by decide) (by decide)⟩

/-- C6 counterexample: on the one-element array `[5]` counting sort records
one move — a self-write of 5 at index 0 — so its move log is not empty,
against the original claim that all four routines keep the log empty for
length 1; the array itself is unchanged. -/
theorem C6_counterexample_counting_singleton :
    (countingSort [5]).2 = [Move.setValueAtIndex 0 5] ∧
    ¬ (countingSort [5]).2 = [] ∧
    (countingSort [5]).1 = [5] := by
  obtain ⟨_, _, hmoves, hout, _⟩ := countingSort_facts [5] (by decide)
  refine ⟨?_, ?_, ?_⟩
  · rw [hmoves]
    decide
  · rw [hmoves]
    decide
  · rw [hout]
    decide

/-- C7: against the ascending sort of the retained pre-sort copy, the
validator records one `{index, originalColor}` record per index `0..N-1`, in
increasing index order, when the display matches the reference at every
index; when the first divergence is at index `k` it records exactly the
indices `0..k-1` and none beyond. -/
theorem C7_validateArray_records (bins : List BinDim) (a : List Int) :
    ((∀ j, j < a.length →
        (bins.getD j ⟨0, ""⟩).value = aget (List.insertionSort (· ≤ ·) a) j) →
      validateArray bins a = (List.range a.length).map
        (fun j => ⟨j, (bins.getD j ⟨0, ""⟩).color⟩)) ∧
    (∀ k, k < a.length →
      (∀ j, j < k →
        (bins.getD j ⟨0, ""⟩).value = aget (List.insertionSort (· ≤ ·) a) j) →
      ¬ (bins.getD k ⟨0, ""⟩).value = aget (List.insertionSort (· ≤ ·) a) k →
      validateArray bins a = (List.range k).map
        (fun j => ⟨j, (bins.getD j ⟨0, ""⟩).color⟩)) := by
  have hslen : (List.insertionSort (· ≤ ·) a).length = a.length :=
    (List.perm_insertionSort _ a).length_eq
  constructor
  · intro hall
    unfold validateArray
    rw [validateLoop_spec (List.insertionSort (· ≤ ·) a).length bins
      (List.insertionSort (· ≤ ·) a) 0 a.length (by omega) (by omega) (by omega)
      (fun j _ hj2 => hall j hj2) (Or.inl hslen.symm)]
    rw [Nat.sub_zero, List.range_eq_range']
  · intro k hk hpre hne
    unfold validateArray
    rw [validateLoop_spec (List.insertionSort (· ≤ ·) a).length bins
      (List.insertionSort (· ≤ ·) a) 0 k (by omega) (by omega) (by omega)
      (fun j _ hj2 => hpre j hj2) (Or.inr hne)]
    rw [Nat.sub_zero, List.range_eq_range']

/-- Witness for C7: a fully matching display state of two bins is validated
at every index, keeping each bin's original color. -/
theorem C7_validateArray_witness :
    validateArray [⟨1, "c1"⟩, ⟨2, "c2"⟩] [2, 1] = [⟨0, "c1"⟩, ⟨1, "c2"⟩] := by
  rw [(C7_validateArray_records [⟨1, "c1"⟩, ⟨2, "c2"⟩] [2, 1]).1 (by decide)]
  decide

/-- C8: the pass `bubble(array, 0, i)` places the maximum of `array[0..i]`
at index `i` (every entry of the range is bounded by the final entry at `i`,
which itself comes from the range); after the outer passes with indices
`N-1, ..., i` have run, the state satisfies the suffix invariant: positions
beyond `i-1` dominate the prefix and are sorted; and the outer loop, which
descends from `N-1` to 1, factors through that intermediate state. -/
theorem C8_bubble_pass_places_max (a : List Int) (i : Nat)
    (h1 : 1 ≤ i) (h2 : i < a.length) :
    (∀ k, k ≤ i → aget a k ≤ aget (bubble a 0 i).1 i) ∧
    (∃ q, q ≤ i ∧ aget (bubble a 0 i).1 i = aget a q) ∧
    BubbleInv (bubbleRunTo a (a.length - 1) i) (i - 1) ∧
    (bubbleSort a).1 =
      (bubbleSortAux (bubbleRunTo a (a.length - 1) i) (i - 1)).1 := by
  refine ⟨?_, ?_, ?_, ?_⟩
  · intro k hk
    exact bubble_bound a 0 i h2 k (Nat.zero_le k) hk
  · obtain ⟨q, _, hq2, hq3⟩ := bubble_mem a 0 i h2 i (Nat.zero_le i) (le_refl i)
    exact ⟨q, hq2, hq3⟩
  · exact bubbleRunTo_inv (a.length - 1) a i h1 (by omega) (by omega)
      (bubbleInv_top a)
  · unfold bubbleSort
    exact bubbleSortAux_factor (a.length - 1) a i h1 (by omega)

/-- Witness for C8 at the array `[3, 1, 2]` with outer index `i = 2`. -/
theorem C8_bubble_pass_witness :
    ((1 : Nat) ≤ 2 ∧ 2 < ([3, 1, 2] : List Int).length) ∧
    ((∀ k, k ≤ 2 → aget [3, 1, 2] k ≤ aget (bubble [3, 1, 2] 0 2).1 2) ∧
      (∃ q, q ≤ 2 ∧ aget (bubble [3, 1, 2] 0 2).1 2 = aget [3, 1, 2] q) ∧
      BubbleInv (bubbleRunTo [3, 1, 2] (([3, 1, 2] : List Int).length - 1) 2)
        (2 - 1) ∧
      (bubbleSort [3, 1, 2]).1 =
        (bubbleSortAux
          (bubbleRunTo [3, 1, 2] (([3, 1, 2] : List Int).length - 1) 2)
          (2 - 1)).1) :=
  ⟨⟨by decide, by decide⟩,
    C8_bubble_pass_places_max [3, 1, 2] 2 (by decide) (by decide)⟩

/-- C9: the comparison-count subscription handler assigns the displayed
field from itself, so for every emitted value the component state is
unchanged — the propagation is a no-op — while the array-access handler
does propagate its emitted value. -/
theorem C9_comparison_count_noop (s : AppCounters) (newCount : Int) :
    onComparisonCountUpdate s newCount = s ∧
    (onComparisonCountUpdate s newCount).comparisonCount = s.comparisonCount ∧
    (onArrayAccessCountUpdate s newCount).arrayAccessCount = newCount := by
  refine ⟨?_, rfl, rfl⟩
  cases s
  rfl

/-- C10: on non-negative inputs counting sort records exactly `N`
`setValueAtIndex` moves whose target indices are a permutation of
`{0, ..., N-1}` — each output index written exactly once, and no other kind
of move appears. -/
theorem C10_countingSort_move_targets (a : List Int) (hnn : ∀ x ∈ a, 0 ≤ x) :
    (countingSort a).2.length = a.length ∧
    ((countingSort a).2.map mvIndex).Perm (List.range a.length) ∧
    (∀ m ∈ (countingSort a).2, ∃ p v, m = Move.setValueAtIndex p v ∧
      p < a.length) := by
  obtain ⟨_, _, hmoves, _, _⟩ := countingSort_facts a hnn
  refine ⟨?_, ?_, ?_⟩
  · rw [hmoves]
    simp
  · rw [hmoves, List.map_map]
    refine List.Perm.trans ?_ (slots_perm a)
    have he : (mvIndex ∘ fun i => Move.setValueAtIndex (slot a i) (aget a i))
        = slot a := rfl
    rw [he]
    exact (List.reverse_perm _).map _
  · intro m hm
    rw [hmoves] at hm
    obtain ⟨i, hi, rfl⟩ := List.mem_map.mp hm
    rw [List.mem_reverse, List.mem_range] at hi
    exact ⟨slot a i, aget a i, rfl, slot_lt hi⟩

/-- Witness for C10 at the array `[2, 0, 1]`. -/
theorem C10_move_targets_witness :
    (∀ x ∈ ([2, 0, 1] : List Int), 0 ≤ x) ∧
    ((countingSort [2, 0, 1]).2.length = ([2, 0, 1] : List Int).length ∧
      ((countingSort [2, 0, 1]).2.map mvIndex).Perm
        (List.range ([2, 0, 1] : List Int).length) ∧
      (∀ m ∈ (countingSort [2, 0, 1]).2, ∃ p v, m = Move.setValueAtIndex p v ∧
        p < ([2, 0, 1] : List Int).length)) :=
  ⟨by decide, C10_countingSort_move_targets [2, 0, 1] (by decide)⟩

end SortVis
